import Mathlib

/-!
Verification development for the project-avani Malayalam corpus-cleaning
pipeline.  The Python sources are shallowly embedded as executable Lean
functions over `List Char` (Python `str` values are sequences of Unicode
scalars, which `Char` models exactly).  Each embedded definition carries the
name of the Python function it translates.
-/

set_option maxRecDepth 10000

/-! ## Unicode scalars used by the pipeline -/

/-- U+0D4D MALAYALAM SIGN VIRAMA (`virama` in chillu_handling.py). -/
def virama : Char := '്'

/-- U+200D ZERO WIDTH JOINER (`zwj`). -/
def zwj : Char := '‍'

/-- U+200C ZERO WIDTH NON-JOINER (`zwnj`). -/
def zwnj : Char := '‌'

/-- U+0D03 MALAYALAM SIGN VISARGA (`ഃ`). -/
def visarga : Char := 'ഃ'

/-- The Malayalam consonant range `ക-ഹ` used by the sources. -/
def isMalCons (c : Char) : Bool := 'ക' ≤ c && c ≤ 'ഹ'

namespace ChilluHandling

/-!
Embedding of `src/chillu_handling.py`.

`rigorous_malayalam_normalization` is implemented in Python as

  pattern = r'([ണനരലളക])(്[‍‌]?)(.|$)'
  re.sub(pattern, lambda m: replace_callback(m) + (m.group(3) if m.group(3)
         and m.group(3) not in [zwj, zwnj] else ""), text, flags=re.DOTALL)

followed by deletion of all remaining ZWJ/ZWNJ characters.  `re.sub` scans
left to right; at each position the pattern matches iff the scalar is one of
the six listed consonants and the next scalar is the virama; the optional
`[ZWJ ZWNJ]?` group is greedy, and `(.|$)` (with DOTALL, no MULTILINE)
consumes one arbitrary scalar, or matches the empty string exactly at the end
of the input.  After a match the scan resumes at the first scalar after the
consumed `(.|$)` group.  `substChillu` below is that scan, transcribed
directly.
-/

/-- The six consonants of the Python character class
`[ണനരലളക]`. -/
def chilluSix (c : Char) : Bool :=
  c = 'ണ' || c = 'ന' || c = 'ര' || c = 'ല' || c = 'ള'
    || c = 'ക'

/-- `chillu_map.get(base, base + virama)` from chillu_handling.py: the
dictionary maps the five bases 0D23/0D28/0D30/0D32/0D33 (NOT 0D15) to
0D7E/0D7B/0D7C/0D7D/0D7A respectively — exactly as the source writes it,
including the fact that 0D23 is sent to 0D7E and 0D33 to 0D7A. -/
def chilluMapGet (c : Char) : List Char :=
  if c = 'ണ' then ['ൾ']
  else if c = 'ന' then ['ൻ']
  else if c = 'ര' then ['ർ']
  else if c = 'ല' then ['ൽ']
  else if c = 'ള' then ['ൺ']
  else [c, virama]

/-- `replace_callback` plus the lambda's re-appending of `m.group(3)`:
`sj` is the optional joiner captured inside group 2, `g3` the scalar captured
by `(.|$)` (`none` when `$` matched). -/
def callback (base : Char) (sj : Option Char) (g3 : Option Char) : List Char :=
  (if sj = some zwnj then [base, virama]
   else if sj = some zwj then chilluMapGet base
   else
     match g3 with
     | some g => if isMalCons g then [base, virama] else chilluMapGet base
     | none => chilluMapGet base)
  ++ (match g3 with
      | some g => if g = zwj || g = zwnj then [] else [g]
      | none => [])

/-- The `re.sub` scan of `rigorous_malayalam_normalization` (before the final
stray ZWJ/ZWNJ deletion). -/
def substChillu : List Char → List Char
  | [] => []
  | [c] => [c]
  | c :: v :: rest =>
    if chilluSix c && v = virama then
      match rest with
      | [] => callback c none none
      | j :: rest2 =>
        if j = zwj || j = zwnj then
          match rest2 with
          | [] => callback c (some j) none
          | g :: rest3 => callback c (some j) (some g) ++ substChillu rest3
        else
          callback c none (some j) ++ substChillu rest2
    else c :: substChillu (v :: rest)

/-- `rigorous_malayalam_normalization` from chillu_handling.py: the `re.sub`
scan followed by `.replace(zwj, "").replace(zwnj, "")`. -/
def rigorous_malayalam_normalization (text : List Char) : List Char :=
  (substChillu text).filter (fun c => !(c = zwj || c = zwnj))

end ChilluHandling

namespace MasterCleanup1

/-- `_CHILLU_PAIRS`/`normalize_zwj` from master_cleanup_1.py: sequential
`str.replace` of each Consonant+Virama+ZWJ triple with the corresponding
atomic chillu (here 0D23 goes to 0D7A and 0D33 to 0D7E).  `str.replace`
rewrites every occurrence left to right; since each pattern has length 3 and
the five patterns differ in their first scalar while no replacement scalar
can recreate a pattern, the five sequential passes equal one combined
left-to-right scan. -/
def normalize_zwj : List Char → List Char
  | c :: v :: j :: rest =>
    if v = virama && j = zwj then
      if c = 'ണ' then 'ൺ' :: normalize_zwj rest
      else if c = 'ന' then 'ൻ' :: normalize_zwj rest
      else if c = 'ര' then 'ർ' :: normalize_zwj rest
      else if c = 'ല' then 'ൽ' :: normalize_zwj rest
      else if c = 'ള' then 'ൾ' :: normalize_zwj rest
      else c :: normalize_zwj (v :: j :: rest)
    else c :: normalize_zwj (v :: j :: rest)
  | l => l

end MasterCleanup1

/-! ## Generic Python string helpers -/

/-- Python's whitespace class: the set matched by `str.isspace`, `str.strip()`
and the regex class `\s` (Unicode mode). -/
def isPySpace (c : Char) : Bool :=
  c = ' ' || c = '\t' || c = '\n' || c = '\x0b' || c = '\x0c' || c = '\x0d' ||
  ('\x1c' ≤ c && c ≤ '\x1f') || c = '\x85' || c = '\xa0' || c = ' ' ||
  (' ' ≤ c && c ≤ ' ') || c = ' ' || c = ' ' ||
  c = ' ' || c = ' ' || c = '　'

/-- Python `str.strip()`. -/
def pyStrip (l : List Char) : List Char :=
  ((l.dropWhile isPySpace).reverse.dropWhile isPySpace).reverse

/-- Python `text.replace('\\n', '\n')`: left-to-right, non-overlapping. -/
def unescapeNewlines : List Char → List Char
  | '\\' :: 'n' :: rest => '\n' :: unescapeNewlines rest
  | c :: rest => c :: unescapeNewlines rest
  | [] => []

/-- Unicode canonical composition (NFC), modelled for the text this pipeline
handles: inside the Malayalam block the only primary composites are
U+0D4A = U+0D46 U+0D3E, U+0D4B = U+0D47 U+0D3E and U+0D4C = U+0D46 U+0D57
(all participating marks have combining class 0, so composition only joins
immediately adjacent pairs), and printable ASCII, ZWJ/ZWNJ and the pipeline's
allowed extras are NFC-inert.  Compositions of other scripts are not
modelled. -/
def nfcMal : List Char → List Char
  | a :: b :: rest =>
    if a = 'െ' && b = 'ാ' then 'ൊ' :: nfcMal rest
    else if a = 'േ' && b = 'ാ' then 'ോ' :: nfcMal rest
    else if a = 'െ' && b = 'ൗ' then 'ൌ' :: nfcMal rest
    else a :: nfcMal (b :: rest)
  | l => l

/-- Split on `'\n'`, as Python `text.split('\n')`: the pieces do not
contain the separator, and splitting the empty text yields one empty
piece. -/
def splitNl : List Char → List (List Char)
  | [] => [[]]
  | c :: rest =>
    if c = '\n' then [] :: splitNl rest
    else
      match splitNl rest with
      | [] => [[c]]
      | p :: ps => (c :: p) :: ps

/-- Join with `'\n'`, as Python `'\n'.join(lines)`. -/
def joinNl (ls : List (List Char)) : List Char := List.intercalate ['\n'] ls

/-- Length bound used for the termination of the run-collapsing scans. -/
theorem dropWhile_len_le {α : Type} (p : α → Bool) (l : List α) :
    (l.dropWhile p).length ≤ l.length := by
  induction l with
  | nil => simp [List.dropWhile]
  | cons a t ih =>
    by_cases h : p a
    · simpa [List.dropWhile, h] using Nat.le_succ_of_le ih
    · simp [List.dropWhile, h]

namespace StructuralCleanup

/-!
Embedding of `src/scripts/structural_cleanup.py`.  The statistics dictionary
and the line counts returned by `clean_text` are observability-only (they are
printed in the report); the embedding returns the cleaned text, plus the
removed-signs count where the source returns one.
-/

/-- `is_allowed_char` from structural_cleanup.py: Malayalam block, printable
ASCII, tab/newline/carriage-return, and `ALLOWED_EXTRA`. -/
def is_allowed_char (c : Char) : Bool :=
  (('ഀ' ≤ c && c ≤ 'ൿ') ||
   ('\x20' ≤ c && c ≤ '\x7e') ||
   (c = '\t' || c = '\n' || c = '\x0d') ||
   (c = '\xb0' || c = '\xa9' || c = '\xae' || c = '\xbd' || c = '\xbc' ||
    c = '₹' || c = '…' || c = '‍' || c = '‌'))

/-- `MALAYALAM_VOWEL_SIGNS`: U+0D3E–U+0D4D plus the AU length mark U+0D57. -/
def isVowelSign (c : Char) : Bool :=
  ('ാ' ≤ c && c ≤ '്') || c = 'ൗ'

/-- `MALAYALAM_VALID_BASES`: consonants U+0D15–U+0D39, chillus U+0D7A–U+0D7F,
or another vowel sign. -/
def isValidBase (c : Char) : Bool :=
  ('ക' ≤ c && c ≤ 'ഹ') || ('ൺ' ≤ c && c ≤ 'ൿ') ||
  isVowelSign c

/-- Whether an `Option Char` lookback is a valid base (`prev is None or
prev not in MALAYALAM_VALID_BASES` negated). -/
def prevIsBase : Option Char → Bool
  | none => false
  | some p => isValidBase p

/-- The loop body of `remove_stray_vowel_signs`, with the `prev` variable made
explicit.  `prev` is only updated when a character is kept, so it is always
the previous character that survived this filter. -/
def strayGo (prev : Option Char) : List Char → List Char × Nat
  | [] => ([], 0)
  | c :: rest =>
    if isVowelSign c && !prevIsBase prev then
      let r := strayGo prev rest
      (r.1, r.2 + 1)
    else
      let r := strayGo (some c) rest
      (c :: r.1, r.2)

/-- `remove_stray_vowel_signs` from structural_cleanup.py: returns
`(cleaned_text, count_of_removed_signs)`. -/
def remove_stray_vowel_signs (text : List Char) : List Char × Nat :=
  strayGo none text

/-- The character class of `REPEATED_PUNCT = r'([.!?,;:\-*#])\1+'`. -/
def isRepPunct (c : Char) : Bool :=
  c = '.' || c = '!' || c = '?' || c = ',' || c = ';' || c = ':' ||
  c = '-' || c = '*' || c = '#'

/-- The character class of `ELLIPSIS_PATTERN = r'[.…]{2,}'`. -/
def isDotEll (c : Char) : Bool := c = '.' || c = '…'

/-- `ELLIPSIS_PATTERN.sub('.', text)`: each maximal run of two or more
`.`/`…` characters becomes a single `.` (the greedy `{2,}` always consumes
the whole run, and `re.sub` resumes after it). -/
def ellipsisSub : List Char → List Char
  | [] => []
  | c :: rest =>
    if isDotEll c then
      if rest.takeWhile isDotEll = [] then c :: ellipsisSub rest
      else '.' :: ellipsisSub (rest.dropWhile isDotEll)
    else c :: ellipsisSub rest
termination_by l => l.length
decreasing_by
  all_goals simp only [List.length_cons]
  all_goals first
    | exact Nat.lt_succ_of_le (dropWhile_len_le ..)
    | exact Nat.lt_succ_self _

/-- `REPEATED_PUNCT.sub(r'\1', text)`: each maximal run of two or more copies
of the *same* punctuation character collapses to one copy (the backreference
`\1+` greedily consumes the identical repeats). -/
def repeatedPunctSub : List Char → List Char
  | [] => []
  | c :: rest =>
    if isRepPunct c then
      if rest.takeWhile (· = c) = [] then c :: repeatedPunctSub rest
      else c :: repeatedPunctSub (rest.dropWhile (· = c))
    else c :: repeatedPunctSub rest
termination_by l => l.length
decreasing_by
  all_goals simp only [List.length_cons]
  all_goals first
    | exact Nat.lt_succ_of_le (dropWhile_len_le ..)
    | exact Nat.lt_succ_self _

/-- `MULTI_SPACE = r'[ \t]{2,}'` collapsed to a single space. -/
def isSpTab (c : Char) : Bool := c = ' ' || c = '\t'

/-- `MULTI_SPACE.sub(' ', text)`. -/
def multiSpaceSub : List Char → List Char
  | [] => []
  | c :: rest =>
    if isSpTab c then
      if rest.takeWhile isSpTab = [] then c :: multiSpaceSub rest
      else ' ' :: multiSpaceSub (rest.dropWhile isSpTab)
    else c :: multiSpaceSub rest
termination_by l => l.length
decreasing_by
  all_goals simp only [List.length_cons]
  all_goals first
    | exact Nat.lt_succ_of_le (dropWhile_len_le ..)
    | exact Nat.lt_succ_self _

/-- `MULTI_BLANK_LINES = r'\n{3,}'` replaced by `'\n\n'`: each maximal run of
three or more newlines becomes exactly two. -/
def multiBlankSub : List Char → List Char
  | [] => []
  | c :: rest =>
    if c = '\n' then
      if (rest.takeWhile (· = '\n')).length + 1 ≥ 3 then
        '\n' :: '\n' :: multiBlankSub (rest.dropWhile (· = '\n'))
      else c :: multiBlankSub rest
    else c :: multiBlankSub rest
termination_by l => l.length
decreasing_by
  all_goals simp only [List.length_cons]
  all_goals first
    | exact Nat.lt_succ_of_le (dropWhile_len_le ..)
    | exact Nat.lt_succ_self _

/-- `ASTERISK_LINE = r'^[\s*]+$'` matched against an (already stripped)
line: at least one character, all of them whitespace or `*`. -/
def asteriskLine (l : List Char) : Bool :=
  !l.isEmpty && l.all (fun c => isPySpace c || c = '*')

/-- Step 8 of `clean_text`: strip each line, drop empty and asterisk-only
lines, re-join with newlines. -/
def lineStage (text : List Char) : List Char :=
  joinNl (((splitNl text).map pyStrip).filter
    (fun ln => !ln.isEmpty && !asteriskLine ln))

/-- Steps 1–7 of `clean_text`: NFC, literal-`\n` unescape, BOM removal,
allow-list filtering, stray-vowel-sign removal, punctuation collapsing and
horizontal-whitespace collapsing. -/
def preLine (text : List Char) : List Char :=
  multiSpaceSub (repeatedPunctSub (ellipsisSub
    (remove_stray_vowel_signs
      (((unescapeNewlines (nfcMal text)).filter (· ≠ '﻿')).filter
        is_allowed_char)).1))

/-- `clean_text` from structural_cleanup.py (the returned text; the stats
dictionary and line counts are reporting-only). -/
def clean_text (text : List Char) : List Char :=
  multiBlankSub (lineStage (preLine text))

end StructuralCleanup

/-- Python `str.split()`: split on runs of whitespace, dropping empty
pieces. -/
def pySplit (l : List Char) : List (List Char) :=
  match h : l.dropWhile isPySpace with
  | [] => []
  | c :: rest =>
    (c :: rest.takeWhile (fun x => !isPySpace x)) ::
      pySplit (rest.dropWhile (fun x => !isPySpace x))
termination_by l.length
decreasing_by
  have h1 : (l.dropWhile isPySpace).length ≤ l.length := dropWhile_len_le ..
  rw [h] at h1
  have h2 : (rest.dropWhile (fun x => !isPySpace x)).length ≤ rest.length :=
    dropWhile_len_le ..
  simp only [List.length_cons] at h1
  omega

namespace MasterCleanup2

/-!
Embedding of `src/scripts/master_cleanup_2.py`.  File handles, temp files and
progress reporting are I/O glue; the byte-range arithmetic, the per-line
transform and the in-order concatenation are modelled exactly.  Byte
positions count UTF-8 bytes of the decoded scalars.
-/

/-- `_RE_VISARGA = re.compile(r'ഃ(?=\s|$)')`, substituted with `':'`: a
Visarga is replaced exactly when the next scalar is whitespace or the scan is
at the end of the text (the `$` alternative can also fire just before a final
newline, but `'\n'` is itself whitespace, so the two cases coincide). -/
def clean_visarga : List Char → List Char
  | [] => []
  | c :: rest =>
    (if c = visarga && (match rest with
                        | [] => true
                        | n :: _ => isPySpace n) then ':' else c)
      :: clean_visarga rest

/-- `string.punctuation` (ASCII 0x21–0x2F, 0x3A–0x40, 0x5B–0x60, 0x7B–0x7E)
plus the four curly quotes U+2018/U+2019/U+201C/U+201D appended by
`_init_worker`. -/
def isWorkerPunct (c : Char) : Bool :=
  ('\x21' ≤ c && c ≤ '\x2f') || ('\x3a' ≤ c && c ≤ '\x40') ||
  ('\x5b' ≤ c && c ≤ '\x60') || ('\x7b' ≤ c && c ≤ '\x7e') ||
  c = '‘' || c = '’' || c = '“' || c = '”'

/-- The worker-local chillu mapping: an association list standing for the
JSON dictionary `_CHILLU_MAP`. -/
abbrev Mapping : Type := List (List Char × List Char)

/-- `_normalize_word`: strip leading and trailing punctuation, look up the
core in the mapping, and re-attach the punctuation on success. -/
def _normalize_word (mapping : Mapping) (raw_word : List Char) : List Char :=
  let l_stripped := raw_word.dropWhile isWorkerPunct
  let leading_punct := raw_word.take (raw_word.length - l_stripped.length)
  let core_word := (l_stripped.reverse.dropWhile isWorkerPunct).reverse
  let trailing_punct := l_stripped.drop core_word.length
  match List.lookup core_word mapping with
  | some v => leading_punct ++ v ++ trailing_punct
  | none => raw_word

/-- `_normalize_chillu_line`: split on whitespace, normalize each word,
re-join with single spaces; empty mapping or wordless lines pass through. -/
def _normalize_chillu_line (mapping : Mapping) (line : List Char) : List Char :=
  match mapping with
  | [] => line
  | _ =>
    match pySplit line with
    | [] => line
    | ws => List.intercalate [' '] (ws.map (_normalize_word mapping))

/-- Python `line.rstrip('\n\r')`. -/
def rstripNlCr (l : List Char) : List Char :=
  (l.reverse.dropWhile (fun c => c = '\n' || c = '\x0d')).reverse

/-- The per-line body of `_process_chunk_to_file`: strip the terminator,
apply `clean_visarga` and `_normalize_chillu_line`, append `'\n'`. -/
def processLine (mapping : Mapping) (line : List Char) : List Char :=
  _normalize_chillu_line mapping (clean_visarga (rstripNlCr line)) ++ ['\n']

/-- UTF-8 length in bytes of one scalar. -/
def utf8Len (c : Char) : Nat :=
  if c.toNat < 0x80 then 1
  else if c.toNat < 0x800 then 2
  else if c.toNat < 0x10000 then 3
  else 4

/-- UTF-8 length in bytes of a text. -/
def bytesLen (l : List Char) : Nat := (l.map utf8Len).sum

/-- Split a file into its physical lines, each keeping its `'\n'` terminator
(the final line may lack one), as consecutive `readline` calls return them. -/
def linesKeepNl : List Char → List (List Char)
  | [] => []
  | c :: rest =>
    if c = '\n' then ['\n'] :: linesKeepNl rest
    else
      match linesKeepNl rest with
      | [] => [[c]]
      | ln :: rest2 => (c :: ln) :: rest2

/-- Pair every line with its starting byte offset. -/
def withOffsets (o : Nat) : List (List Char) → List (Nat × List Char)
  | [] => []
  | ln :: rest => (o, ln) :: withOffsets (o + bytesLen ln) rest

/-- The `f_in.buffer.seek(start); f_in.buffer.readline()` boundary
adjustment: the stream position after discarding the (possibly partial) line
containing byte `start`; at or past end of file `readline` returns nothing
and the position stays. -/
def adjustStart (lines : List (Nat × List Char)) (start : Nat) : Nat :=
  match lines.find? (fun p => p.1 ≤ start && start < p.1 + bytesLen p.2) with
  | some p => p.1 + bytesLen p.2
  | none => start

/-- The lines a worker assigned `[start, end)` feeds through the transform:
after the boundary adjustment (skipped when `start = 0`), every line whose
starting offset is below `end`. -/
def workerLines (lines : List (Nat × List Char)) (start endB : Nat) :
    List (List Char) :=
  let adj := if start = 0 then 0 else adjustStart lines start
  (lines.filter (fun p => adj ≤ p.1 && p.1 < endB)).map (·.2)

/-- The loop of `_compute_chunks`, with the remaining iteration count made
explicit (`k = 0` marks the final chunk, whose end is the file size). -/
def chunksLoop (size cs : Nat) : Nat → Nat → List (Nat × Nat)
  | 0, _ => []
  | k + 1, start =>
    let e := if k = 0 then size else start + cs
    (start, e) :: chunksLoop size cs k e

/-- `_compute_chunks`: `num_chunks` byte ranges of `file_size // num_chunks`
bytes each, the last extended to the file size. -/
def _compute_chunks (size n : Nat) : List (Nat × Nat) :=
  chunksLoop size (size / n) n 0

/-- The whole `master_cleanup_2` run on one in-memory file: process every
chunk, then concatenate the per-chunk outputs in chunk-index order
(`_concatenate_files` over `pool.imap`'s order-preserving results). -/
def chunkedRun (mapping : Mapping) (n : Nat) (file : List Char) : List Char :=
  let lines := withOffsets 0 (linesKeepNl file)
  ((_compute_chunks (bytesLen file) n).map
    (fun se => ((workerLines lines se.1 se.2).map (processLine mapping)).flatten)).flatten

/-- Whether the chunk `se` processes the line starting at byte `off`. -/
def processesLine (lines : List (Nat × List Char)) (se : Nat × Nat)
    (off : Nat) : Bool :=
  (if se.1 = 0 then 0 else adjustStart lines se.1) ≤ off && off < se.2

/-- `_init_worker`: a missing mapping file yields the empty mapping; a
present file goes through `json.load`, whose failure on malformed input is
not caught anywhere and aborts the worker.  `parse` stands for `json.load`
restricted to the flat string-to-string objects the mapping artifact
contains; `none` models the file being absent (`os.path.isfile` false). -/
def _init_worker (parse : List Char → Option Mapping)
    (mappingFile : Option (List Char)) : Except Unit Mapping :=
  match mappingFile with
  | none => .ok []
  | some content =>
    match parse content with
    | some m => .ok m
    | none => .error ()

end MasterCleanup2

namespace CleanVisarga

/-!
Embedding of `src/data/clean_visarga.py`.

`clean_text` is `re.compile(r'(\S+)(ഃ)').sub(replacement_func, text)`.
`re.sub` tries each position left to right; at a position holding a
non-whitespace scalar, the greedy `\S+` (at least one scalar, none of them
whitespace) backtracks until the next scalar is a Visarga, so a match exists
exactly when the maximal non-whitespace run starting here contains a Visarga
at offset ≥ 1, and the greedy match ends at the *last* such Visarga.  The
replacement returns the whole match unchanged when it is in `valid_words`,
and otherwise group 1 followed by `':'`; scanning resumes after the match.
-/

/-- Offset of the last Visarga at position ≥ 1 of a non-whitespace run —
where `(\S+)(ഃ)` ends its greedy match, if it matches. -/
def lastVisargaIdx (run : List Char) : Option Nat :=
  ((run.enum.filter (fun p => decide (1 ≤ p.1) && decide (p.2 = visarga))).getLast?).map
    (·.1)

/-- The scan of `clean_text(text, valid_words)`, fuelled by the remaining
length: every step consumes at least one scalar (a match ends at its last
Visarga, at offset ≥ 1), so seeding the fuel with the text length makes the
fuelled scan total and exact. -/
def cleanTextFuel (valid : List (List Char)) : Nat → List Char → List Char
  | 0, l => l
  | _ + 1, [] => []
  | fuel + 1, c :: rest =>
    if isPySpace c then c :: cleanTextFuel valid fuel rest
    else
      let run := c :: rest.takeWhile (fun x => !isPySpace x)
      match lastVisargaIdx run with
      | some k =>
        (if run.take (k + 1) ∈ valid then run.take (k + 1)
         else run.take k ++ [':'])
          ++ cleanTextFuel valid fuel ((c :: rest).drop (k + 1))
      | none => c :: cleanTextFuel valid fuel rest

/-- `clean_text(text, valid_words)` from clean_visarga.py. -/
def clean_text (valid : List (List Char)) (text : List Char) : List Char :=
  cleanTextFuel valid text.length text


/-- The spec's "last Visarga of the run having at least one preceding
character", in direct recursive form: `i` is the absolute run offset of the
head of the remaining tail, so `lv 1 t` scans the tail `t` of a run and
returns the run offset of its last Visarga (every tail position has offset
at least 1). -/
def lv (i : Nat) : List Char → Option Nat
  | [] => none
  | x :: rest =>
    match lv (i + 1) rest with
    | some k => some k
    | none => if x = visarga then some i else none

/-- Spec-side per-run rule: within one maximal non-whitespace run, the last
Visarga having at least one preceding character of the run is replaced by a
colon, unless the run's prefix up to and including it is in the mapping, in
which case that prefix is kept; every other character of the run (including
a run-initial Visarga and any earlier Visarga) is unchanged. -/
def visargaRunSub (valid : List (List Char)) (run : List Char) : List Char :=
  match run with
  | [] => []
  | _ :: t =>
    match lv 1 t with
    | some k =>
      (if run.take (k + 1) ∈ valid then run.take (k + 1)
       else run.take k ++ [':']) ++ run.drop (k + 1)
    | none => run

/-- The segmentation of a text into its maximal non-whitespace runs, each
whitespace scalar standing alone — fuelled by the remaining length (each
segment consumes at least one scalar). -/
def wsRunsFuel : Nat → List Char → List (List Char)
  | 0, _ => []
  | _ + 1, [] => []
  | fuel + 1, c :: rest =>
    if isPySpace c then [c] :: wsRunsFuel fuel rest
    else (c :: rest.takeWhile (fun x => !isPySpace x)) ::
      wsRunsFuel fuel (rest.dropWhile (fun x => !isPySpace x))

/-- The segmentation of a text into its maximal non-whitespace runs, each
whitespace scalar standing alone. -/
def wsRuns (l : List Char) : List (List Char) := wsRunsFuel l.length l

/-- The spec's Visarga rule over a whole text: every maximal non-whitespace
run rewritten by the per-run rule, whitespace unchanged. -/
def visargaSpec (valid : List (List Char)) (text : List Char) : List Char :=
  ((wsRuns text).map (visargaRunSub valid)).flatten
end CleanVisarga

namespace FindChilluPairs

/-!
Embedding of the core of `src/scripts/find_chillu_pairs.py`: the input is the
deduplicated vocabulary (the set of stripped non-empty lines of the word
file); file loading, progress printing and JSON dumping are glue.  Iterating
the Python set in any order builds the same word-to-word mapping, so the
result is modelled as an association list over the given vocabulary order.
-/

/-- The `mapping` of Consonant+Virama keys to atomic chillus (six entries,
including `ക് → ൿ`). -/
def pairMap (c : Char) : Option Char :=
  if c = 'ണ' then some 'ൺ'
  else if c = 'ന' then some 'ൻ'
  else if c = 'ര' then some 'ർ'
  else if c = 'ല' then some 'ൽ'
  else if c = 'ള' then some 'ൾ'
  else if c = 'ക' then some 'ൿ'
  else none

/-- `pattern.sub(replace_func, word)`: the alternation of the six two-scalar
keys (all the same length, pairwise distinguished by their first scalar)
replaced by the mapped chillu, scanning left to right. -/
def atomicSub : List Char → List Char
  | c :: v :: rest =>
    match pairMap c with
    | some ch =>
      if v = virama then ch :: atomicSub rest
      else c :: atomicSub (v :: rest)
    | none => c :: atomicSub (v :: rest)
  | l => l

/-- `any(k in word for k in mapping)`: some two-scalar key occurs in the
word. -/
def hasKey : List Char → Bool
  | c :: v :: rest => ((pairMap c).isSome && v = virama) || hasKey (v :: rest)
  | _ => false

/-- `find_chillu_pairs`, restricted to its pure core: for every vocabulary
word containing a key, rewrite it and record the pair when the rewrite is
different and itself a vocabulary entry. -/
def find_chillu_pairs (vocab : List (List Char)) :
    List (List Char × List Char) :=
  vocab.filterMap (fun w =>
    if hasKey w then
      if atomicSub w ≠ w ∧ atomicSub w ∈ vocab then some (w, atomicSub w)
      else none
    else none)

end FindChilluPairs

namespace MasterCleanup2

/-- Leading whitespace skipped, as a JSON tokenizer does. -/
def skipWs (l : List Char) : List Char := l.dropWhile isPySpace

/-- One JSON string literal without escape sequences: the mapping artifact
consists of plain Malayalam words. -/
def parseJsonString : List Char → Option (List Char × List Char)
  | '"' :: rest =>
    let s := rest.takeWhile (fun c => c ≠ '"' && c ≠ '\x5c')
    match rest.drop s.length with
    | '"' :: r => some (s, r)
    | _ => none
  | _ => none

/-- Comma-separated `"key": "value"` members (fuelled by the input length). -/
def jsonPairs : Nat → List Char → Option (Mapping × List Char)
  | 0, _ => none
  | fuel + 1, l =>
    match parseJsonString (skipWs l) with
    | none => none
    | some (k, r1) =>
      match skipWs r1 with
      | ':' :: r2 =>
        match parseJsonString (skipWs r2) with
        | none => none
        | some (v, r3) =>
          match skipWs r3 with
          | ',' :: r4 => (jsonPairs fuel r4).map (fun p => ((k, v) :: p.1, p.2))
          | r4 => some ([(k, v)], r4)
      | _ => none

/-- `json.load` restricted to the shape of the mapping artifact (a flat
object of plain strings): `some` on well-formed input, `none` — the
modelled `json.JSONDecodeError` — on anything else. -/
def jsonParse (l : List Char) : Option Mapping :=
  match skipWs l with
  | '\x7b' :: r =>
    match skipWs r with
    | '\x7d' :: r2 => if (skipWs r2).isEmpty then some [] else none
    | _ =>
      match jsonPairs (r.length + 1) r with
      | some (m, rest) =>
        match skipWs rest with
        | '\x7d' :: r2 => if (skipWs r2).isEmpty then some m else none
        | _ => none
      | none => none
  | _ => none

end MasterCleanup2

namespace MasterCleanup1

/-!
The rest of the embedding of `src/scripts/master_cleanup_1.py`.  Its
character sets and run-collapsing regexes coincide with those of
structural_cleanup.py, so those scans are shared; the extra HTML-tag and
spaced-punctuation substitutions and the boilerplate classifier are specific
to this file.  `str.translate`/`_filter_chars` deletes exactly the characters
outside `_ALLOWED_CP`, which is the same set as
`StructuralCleanup.is_allowed_char`.
-/

/-- ASCII letter, the `[a-zA-Z]` of `_RE_HTML_TAGS`. -/
def isAsciiAlpha (c : Char) : Bool :=
  ('a' ≤ c && c ≤ 'z') || ('A' ≤ c && c ≤ 'Z')

/-- The tail of `_RE_HTML_TAGS = r'</?[a-zA-Z][^>]*/?>'` after the optional
slash: an ASCII letter, then everything up to and including the first `'>'`
(the greedy `[^>]*` cannot cross a `'>'`, which then absorbs the optional
`'/'`); returns the remainder on success. -/
def htmlTagEnd (body : List Char) : Option (List Char) :=
  match body with
  | a :: r2 =>
    if isAsciiAlpha a && r2.any (· = '>') then
      some ((r2.dropWhile (· ≠ '>')).tail)
    else none
  | [] => none

/-- One match of `_RE_HTML_TAGS` attempted right after a `'<'`. -/
def htmlSkip (l : List Char) : Option (List Char) :=
  match l with
  | '/' :: r => htmlTagEnd r
  | _ => htmlTagEnd l

/-- A successful `htmlTagEnd` strictly shrinks the text. -/
theorem htmlTagEnd_len_lt {l r : List Char} (h : htmlTagEnd l = some r) :
    r.length < l.length := by
  rcases l with _ | ⟨a, r2⟩
  · simp [htmlTagEnd] at h
  · simp only [htmlTagEnd] at h
    split at h
    · injection h with h
      subst h
      have h1 : (r2.dropWhile (· ≠ '>')).length ≤ r2.length :=
        dropWhile_len_le ..
      cases hd : r2.dropWhile (· ≠ '>') with
      | nil => simp [hd]
      | cons y ys =>
        rw [hd] at h1
        simp only [hd, List.tail_cons, List.length_cons] at h1 ⊢
        omega
    · simp at h

/-- A successful `htmlSkip` strictly shrinks the text. -/
theorem htmlSkip_len_lt {l r : List Char} (h : htmlSkip l = some r) :
    r.length < l.length := by
  unfold htmlSkip at h
  split at h
  · have := htmlTagEnd_len_lt h
    simp only [List.length_cons]
    omega
  · exact htmlTagEnd_len_lt h

end MasterCleanup1

namespace MasterCleanup1

/-- `_RE_HTML_TAGS.sub('', text)`: delete every tag match, scanning left to
right. -/
def htmlTagSub : List Char → List Char
  | [] => []
  | c :: rest =>
    if c = '<' then
      match h : htmlSkip rest with
      | some r => htmlTagSub r
      | none => c :: htmlTagSub rest
    else c :: htmlTagSub rest
termination_by l => l.length
decreasing_by
  · have := htmlSkip_len_lt h
    simp only [List.length_cons]
    omega
  · simp
  · simp

/-- The character class of `_RE_SPACED_PUNCT = r'([.!?,;:])([\s]*[.!?,;:])+'`. -/
def isPunct6 (c : Char) : Bool :=
  c = '.' || c = '!' || c = '?' || c = ',' || c = ';' || c = ':'

/-- One iteration of `([\s]*[.!?,;:])`: any whitespace, then one punctuation
mark; returns the remainder on success. -/
def spacedStep (l : List Char) : Option (List Char) :=
  match l.dropWhile isPySpace with
  | p :: rest => if isPunct6 p then some rest else none
  | [] => none

/-- A successful `spacedStep` strictly shrinks the text. -/
theorem spacedStep_len_lt {l r : List Char} (h : spacedStep l = some r) :
    r.length < l.length := by
  unfold spacedStep at h
  have h1 : (l.dropWhile isPySpace).length ≤ l.length := dropWhile_len_le ..
  split at h
  · rename_i p rest heq
    rw [heq] at h1
    simp only [List.length_cons] at h1
    split at h
    · injection h with h
      subst h
      omega
    · simp at h
  · simp at h

/-- The greedy `([\s]*[.!?,;:])+` continuation: iterate `spacedStep` while
it succeeds.  Each step strictly shrinks the text, so fuelling the loop with
the text length is exact. -/
def spacedManyFuel : Nat → List Char → List Char
  | 0, l => l
  | fuel + 1, l =>
    match spacedStep l with
    | some r => spacedManyFuel fuel r
    | none => l

/-- `spacedManyFuel` never grows the text. -/
theorem spacedManyFuel_len_le (fuel : Nat) (l : List Char) :
    (spacedManyFuel fuel l).length ≤ l.length := by
  induction fuel generalizing l with
  | zero => simp [spacedManyFuel]
  | succ n ih =>
    cases hstep : spacedStep l with
    | some r =>
      have := spacedStep_len_lt hstep
      have := ih r
      simp only [spacedManyFuel, hstep]
      omega
    | none => simp [spacedManyFuel, hstep]

/-- All iterations of `([\s]*[.!?,;:])+` from this point. -/
def spacedMany (l : List Char) : List Char := spacedManyFuel l.length l

/-- `spacedMany` never grows the text. -/
theorem spacedMany_len_le (l : List Char) :
    (spacedMany l).length ≤ l.length := spacedManyFuel_len_le ..

/-- `_RE_SPACED_PUNCT.sub(r'\1', text)`: a punctuation mark followed by at
least one whitespace-then-punctuation group keeps only the leading mark; the
greedy repetition consumes as many groups as will match. -/
def spacedPunctSub : List Char → List Char
  | [] => []
  | c :: rest =>
    if isPunct6 c then
      match spacedStep rest with
      | some _ => c :: spacedPunctSub (spacedMany rest)
      | none => c :: spacedPunctSub rest
    else c :: spacedPunctSub rest
termination_by l => l.length
decreasing_by
  all_goals simp only [List.length_cons]
  all_goals first
    | exact Nat.lt_succ_of_le (spacedMany_len_le _)
    | exact Nat.lt_succ_self _

end MasterCleanup1

namespace MasterCleanup1

/-- Python `\d` (Unicode decimal digit), restricted to the scripts this
pipeline can feed the classifier: ASCII and Malayalam digits. -/
def isPyDigit (c : Char) : Bool :=
  ('0' ≤ c && c ≤ '9') || ('൦' ≤ c && c ≤ '൯')

/-- Drop a literal prefix, or fail. -/
def dropPrefixQ (pat l : List Char) : Option (List Char) :=
  if pat.isPrefixOf l then some (l.drop pat.length) else none

/-- The remainder after the first occurrence of `pat`, or `none`. -/
def afterSub (pat : List Char) : List Char → Option (List Char)
  | [] => if pat.isEmpty then some [] else none
  | c :: t =>
    if pat.isPrefixOf (c :: t) then some ((c :: t).drop pat.length)
    else afterSub pat t

/-- `\s+`: at least one whitespace scalar, consumed greedily. -/
def wsPlusQ (l : List Char) : Option (List Char) :=
  match l with
  | c :: _ =>
    if isPySpace c then some (l.dropWhile isPySpace) else none
  | [] => none

/-- `\d{n}` followed by a non-digit context: exactly `n` digits (a longer
digit run makes the fixed-width group's successor fail). -/
def digitsExact (n : Nat) (l : List Char) : Option (List Char) :=
  if (l.takeWhile isPyDigit).length = n then some (l.drop n) else none

/-- Four consecutive digits occur somewhere (`.*\d{4}` after a search hit). -/
def has4digits (l : List Char) : Bool :=
  l.tails.any (fun t => (t.take 4).length = 4 && (t.take 4).all isPyDigit)

/-- First scalar is a decimal digit. -/
def headDigit : List Char → Bool
  | c :: _ => isPyDigit c
  | [] => false

/-- `r'©.*\d{4}'` searched: some `©` with four consecutive digits after it
(if any `©` qualifies, the first does). -/
def reCopySign (l : List Char) : Bool :=
  match l.dropWhile (· ≠ '©') with
  | _ :: r => has4digits r
  | [] => false

/-- `r'Copyright.*\d{4}'` (IGNORECASE) searched on the lowered line. -/
def reCopyWord (l : List Char) : Bool :=
  match afterSub "copyright".toList l with
  | some r => has4digits r
  | none => false

/-- `r'All\s+rights\s+reserved'` (IGNORECASE) searched. -/
def reAllRights (l : List Char) : Bool :=
  l.tails.any (fun t =>
    ((((dropPrefixQ "all".toList t).bind wsPlusQ).bind
      (dropPrefixQ "rights".toList)).bind wsPlusQ).bind
      (dropPrefixQ "reserved".toList) |>.isSome)

/-- The category alternatives of the navigation-line pattern. -/
def catWords : List (List Char) :=
  ["news", "technology", "sports", "entertainment", "business", "world",
   "national", "india"].map String.toList

/-- `r'^-\s*(News|…|India)\s'` (IGNORECASE) anchored at the start. -/
def reCatNav (l : List Char) : Bool :=
  match l with
  | '-' :: r =>
    let r2 := r.dropWhile isPySpace
    catWords.any (fun w =>
      match dropPrefixQ w r2 with
      | some (c :: _) => isPySpace c
      | _ => false)
  | _ => false

/-- The separator class `[\-\|•·=]`. -/
def isSepChar (c : Char) : Bool :=
  c = '-' || c = '|' || c = '•' || c = '·' || c = '='

/-- `r'^\s*[\-\|•·=]{3,}\s*$'`. -/
def reSepLine (l : List Char) : Bool :=
  let t := l.dropWhile isPySpace
  let run := t.takeWhile isSepChar
  3 ≤ run.length && (t.drop run.length).all isPySpace

/-- `r'^\s*\|?\s*\d{1,2}\s*[A-Za-z]+\s*\d{4}\s*$'`: a bare date line. -/
def reDateLine (l : List Char) : Bool :=
  let t1 := l.dropWhile isPySpace
  let t2 := match t1 with
            | '|' :: r => r.dropWhile isPySpace
            | _ => t1
  let d := t2.takeWhile isPyDigit
  (1 ≤ d.length && d.length ≤ 2) &&
    (let t3 := (t2.drop d.length).dropWhile isPySpace
     let a := t3.takeWhile isAsciiAlpha
     1 ≤ a.length &&
       (let t4 := (t3.drop a.length).dropWhile isPySpace
        (t4.takeWhile isPyDigit).length = 4 && (t4.drop 4).all isPySpace))

/-- The weekday alternatives. -/
def weekdayWords : List (List Char) :=
  ["monday", "tuesday", "wednesday", "thursday", "friday", "saturday",
   "sunday"].map String.toList

/-- `r'^(Monday|…|Sunday)\s*,?\s+\d'` (IGNORECASE) anchored. -/
def reWeekday (l : List Char) : Bool :=
  weekdayWords.any (fun w =>
    match dropPrefixQ w l with
    | some r =>
      match r.dropWhile isPySpace with
      | ',' :: r2 =>
        1 ≤ (r2.takeWhile isPySpace).length &&
          headDigit (r2.dropWhile isPySpace)
      | a => 1 ≤ (r.takeWhile isPySpace).length && headDigit a
    | none => false)

/-- `r'https?://\S+'` (IGNORECASE) searched on the lowered line. -/
def reUrl (l : List Char) : Bool :=
  l.tails.any (fun t =>
    match dropPrefixQ "http".toList t with
    | some r =>
      let r2 := match r with
                | 's' :: x => x
                | _ => r
      match dropPrefixQ "://".toList r2 with
      | some (c :: _) => !isPySpace c
      | _ => false
    | none => false)

/-- `r'Archived\s+\d{4}-\d{2}-\d{2}\s+at\s+the\s+Wayback\s+Machine'`
(IGNORECASE) searched on the lowered line. -/
def reWayback (l : List Char) : Bool :=
  l.tails.any (fun t =>
    (((((((((((dropPrefixQ "archived".toList t).bind wsPlusQ).bind
      (digitsExact 4)).bind (dropPrefixQ "-".toList)).bind
      (digitsExact 2)).bind (dropPrefixQ "-".toList)).bind
      (digitsExact 2)).bind wsPlusQ).bind
      (fun x => (dropPrefixQ "at".toList x).bind wsPlusQ)).bind
      (fun x => (dropPrefixQ "the".toList x).bind wsPlusQ)).bind
      (fun x => (dropPrefixQ "wayback".toList x).bind wsPlusQ)).bind
      (dropPrefixQ "machine".toList) |>.isSome)

/-- `r'^[^|]*\|[^|]*\|[^|]*\|'`: at least three pipes on the line. -/
def rePipes (l : List Char) : Bool :=
  3 ≤ l.countP (· = '|')

/-- `';'` at index `j` of `l`. -/
def semiAt (l : List Char) (j : Nat) : Bool :=
  match l.get? j with
  | some c => c = ';'
  | none => false

/-- Whitespace at index `j` of `l`. -/
def wsAt (l : List Char) (j : Nat) : Bool :=
  match l.get? j with
  | some c => isPySpace c
  | none => false

/-- `k` repetitions of `.+;\s+` from this point: each needs at least one
scalar, a semicolon, one whitespace scalar (the `\s+` may keep just one, the
following `.+` absorbing the rest). -/
def semiChain : Nat → List Char → Bool
  | 0, _ => true
  | k + 1, l =>
    (List.range l.length).any (fun j =>
      decide (1 ≤ j) && semiAt l j && wsAt l (j + 1) &&
        semiChain k (l.drop (j + 2)))

/-- `r'^-\s+.+;\s+.+;\s+.+;\s+.+;\s+'`: a dash, whitespace, then four
semicolon-separated fields. -/
def reSemiList (l : List Char) : Bool :=
  match l with
  | '-' :: c :: rest => isPySpace c && semiChain 4 rest
  | _ => false

/-- `\d{lo,hi}` with full backtracking: every remainder after consuming
between `lo` and `hi` leading digits. -/
def dTake (lo hi : Nat) (l : List Char) : List (List Char) :=
  ((List.range (min hi (l.takeWhile isPyDigit).length + 1)).filter
    (fun n => lo ≤ n)).map (fun n => l.drop n)

/-- `[\s.-]?`: the remainders after consuming the optional separator. -/
def sepOpt (l : List Char) : List (List Char) :=
  match l with
  | c :: t =>
    if isPySpace c || c = '.' || c = '-' then [c :: t, t] else [c :: t]
  | [] => [[]]

/-- `r'\+\d{1,4}[\s.-]?\d{1,4}[\s.-]?\d{1,4}[\s.-]?\d{1,9}'` matched at this
position. -/
def phoneAt : List Char → Bool
  | '+' :: r =>
    (dTake 1 4 r).any (fun r1 => (sepOpt r1).any (fun r2 =>
      (dTake 1 4 r2).any (fun r3 => (sepOpt r3).any (fun r4 =>
        (dTake 1 4 r4).any (fun r5 => (sepOpt r5).any (fun r6 =>
          headDigit r6))))))
  | _ => false

/-- The phone-number pattern searched anywhere on the line. -/
def rePhone (l : List Char) : Bool := l.tails.any phoneAt

/-- The language-name alternatives. -/
def langWords : List (List Char) :=
  ["hindi", "marathi", "gujarati", "kannada", "bengali", "malayalam",
   "telugu", "punjabi", "urdu", "odia", "assamese", "tamil", "english",
   "sanskrit"].map String.toList

/-- `r'^\s*\(?\s*(Hindi|…|Sanskrit)\s*\)?\)?\s*$'` (IGNORECASE). -/
def reLangLine (l : List Char) : Bool :=
  let t1 := l.dropWhile isPySpace
  let t2 := match t1 with
            | '(' :: r => r.dropWhile isPySpace
            | _ => t1
  langWords.any (fun w =>
    match dropPrefixQ w t2 with
    | some r =>
      let r1 := r.dropWhile isPySpace
      let r2 := match r1 with
                | ')' :: x => x
                | _ => r1
      let r3 := match r2 with
                | ')' :: x => x
                | _ => r2
      r3.all isPySpace
    | none => false)

/-- The class of `r"^[\s\(\)\[\]\{\}'.,:;!?\-_/*#@&|=+<>~`+backslash+quote]+$"`. -/
def isPunctSymCls (c : Char) : Bool :=
  isPySpace c || c = '(' || c = ')' || c = '[' || c = ']' || c = '\x7b' ||
  c = '\x7d' || c = '\x27' || c = '.' || c = ',' || c = ':' || c = ';' ||
  c = '!' || c = '?' || c = '-' || c = '_' || c = '/' || c = '*' ||
  c = '#' || c = '@' || c = '&' || c = '|' || c = '=' || c = '+' ||
  c = '<' || c = '>' || c = '~' || c = '\x60' || c = '\x5c' || c = '"'

/-- The letters-only-punctuation line pattern. -/
def rePunctOnly (l : List Char) : Bool :=
  !l.isEmpty && l.all isPunctSymCls

end MasterCleanup1

namespace MasterCleanup1

/-- `BOILERPLATE_KEYWORDS`, already lowercased as in the source. -/
def BOILERPLATE_KEYWORDS : List (List Char) :=
  ["©", "copyright", "all rights reserved", "terms of use",
   "privacy policy", "disclaimer", "cookie policy",
   "also read", "don't miss", "don’t miss", "read more", "click here",
   "read also",
   "subscribe", "sign up", "log in", "share this",
   "follow us", "join us", "see also", "previous:", "next:",
   "load more", "show more", "view more",
   "last modified", "last updated", "english edition",
   "published:", "updated:",
   "മറുനാടൻ ടിവിയുടെ ഫേസ്ബുക്ക് പേജ് ഹാക്ക് ചെയ്തു",
   "ഷാജൻ സ്കറിയയുടെ വീഡിയോ കാണാം",
   "കൂടുതൽ വായിക്കുക", "തുടർന്ന് വായിക്കുക",
   "സബ്സ്ക്രൈബ് ചെയ്യുക", "ഷെയർ ചെയ്യുക", "കമന്റ് ചെയ്യുക",
   "ലൈക്ക് ചെയ്യുക", "സെർച്ച്",
   "advertisement", "sponsored", "ad ",
   "keywords:", "top-headlines",
   "begin typing your search above",
   "your comment added successfully",
   "consectetur adipiscing elit",
   "save my name, email, and website",
   "press ctrl+m to toggle",
   "download the fanport app",
   "ഭാഷ തിരഞ്ഞെടുക്കുക",
   "കൂടുതൽ ഭാഷ"].map String.toList

/-- All fifteen `_BOILERPLATE_RE` patterns, searched on the line.  All are
compiled with IGNORECASE, so they run on the lowercased line; lowering only
affects ASCII letters here ('©', digits, whitespace and Malayalam scalars are
caseless), matching Python on the pipeline's post-filter alphabet. -/
def regexHit (lower : List Char) : Bool :=
  reCopySign lower || reCopyWord lower || reAllRights lower ||
  reCatNav lower || reSepLine lower || reDateLine lower ||
  reWeekday lower || reUrl lower || reWayback lower ||
  rePipes lower || reSemiList lower || rePhone lower ||
  reLangLine lower || rePunctOnly lower

/-- `[A-Za-zഀ-ൿ]` — `_RE_ALPHA`/`_RE_LETTERS`. -/
def isAlphaML (c : Char) : Bool :=
  isAsciiAlpha c || ('ഀ' ≤ c && c ≤ 'ൿ')

/-- `[ഀ-ൿ]` — `_RE_ML_RANGE`. -/
def isML (c : Char) : Bool := 'ഀ' ≤ c && c ≤ 'ൿ'

/-- `_is_boilerplate_line`: the keep/remove decision, evaluated in the
source's priority order (blank, keyword, regex, then the statistical
heuristics).  The two float-ratio thresholds 0.3 and 0.15 are modelled as the
exact rational comparisons `letters·10 < len·3` and `ml·20 < alpha·3`. -/
def _is_boilerplate_line (line : List Char) : Bool :=
  let stripped := pyStrip line
  if stripped.isEmpty then true
  else
    let lower := stripped.map Char.toLower
    if BOILERPLATE_KEYWORDS.any (fun kw => (afterSub kw lower).isSome) then true
    else if regexHit lower then true
    else if stripped.length < 5 then true
    else if decide (3 < stripped.length) &&
            (stripped.countP isAlphaML) * 10 < stripped.length * 3 then true
    else if stripped.countP isML = 0 && stripped.length < 80 then true
    else if decide (30 < stripped.length) &&
            (stripped.countP isAlphaML = 0 ||
             (stripped.countP isML) * 20 < (stripped.countP isAlphaML) * 3)
         then true
    else false

/-- `remove_boilerplate`: drop every boilerplate line. -/
def remove_boilerplate (text : List Char) : List Char :=
  joinNl ((splitNl text).filter (fun ln => !_is_boilerplate_line ln))

/-- `_remove_stray_vowel_signs` of master_cleanup_1.py: same loop as
structural_cleanup.py's, without the counter. -/
def _remove_stray_vowel_signs (text : List Char) : List Char :=
  (StructuralCleanup.strayGo none text).1

/-- `_filter_chars`: `str.translate` deleting every scalar outside
`_ALLOWED_CP`, which is the allow-list of `is_allowed_char`. -/
def _filter_chars (text : List Char) : List Char :=
  text.filter StructuralCleanup.is_allowed_char

/-- `structural_cleanup` from master_cleanup_1.py: NFC, BOM removal, HTML-tag
stripping, allow-list filtering, stray-sign removal, the four run-collapsing
substitutions, then the strip/drop line stage and the blank-line collapse. -/
def structural_cleanup (text : List Char) : List Char :=
  StructuralCleanup.multiBlankSub (StructuralCleanup.lineStage
    (StructuralCleanup.multiSpaceSub (spacedPunctSub
      (StructuralCleanup.repeatedPunctSub (StructuralCleanup.ellipsisSub
        (_remove_stray_vowel_signs (_filter_chars
          (htmlTagSub ((nfcMal text).filter (· ≠ '﻿'))))))))))

/-- `MIN_CLEANED_LENGTH`. -/
def MIN_CLEANED_LENGTH : Nat := 20

/-- `clean_document` from master_cleanup_1.py: strip and unescape the raw
line, return `None` when empty, then normalize, structurally clean, remove
boilerplate, strip, and return `None` when the cleaned text is shorter than
`MIN_CLEANED_LENGTH`. -/
def clean_document (raw : List Char) : Option (List Char) :=
  let text := unescapeNewlines (pyStrip raw)
  if text.isEmpty then none
  else
    let t := pyStrip (remove_boilerplate (structural_cleanup
      (normalize_zwj text)))
    if t.length < MIN_CLEANED_LENGTH then none else some t

end MasterCleanup1

/-- Three consecutive newlines occur nowhere (the guard under which the
`\n{3,}` collapse can fire). -/
def noTripleNl : List Char → Bool
  | [] => true
  | c :: rest =>
    (!(c = '\n' && (match rest with
                     | a :: b :: _ => a = '\n' && b = '\n'
                     | _ => false))) && noTripleNl rest

namespace StructuralCleanup

/-- Every Malayalam vowel sign in the stream sits on a valid base, the
lookback being the previous character of the stream itself (`prev` seeds the
lookback). -/
def signsHaveBases (prev : Option Char) : List Char → Bool
  | [] => true
  | c :: rest => (!isVowelSign c || prevIsBase prev) && signsHaveBases (some c) rest

end StructuralCleanup

namespace MasterCleanup1

/-- The cleaned, trimmed text `clean_document` gates on its length: the
pipeline of `clean_document` up to the final `strip()`. -/
def cleanedText (raw : List Char) : List Char :=
  pyStrip (remove_boilerplate (structural_cleanup
    (normalize_zwj (unescapeNewlines (pyStrip raw)))))

end MasterCleanup1

/-! ## Supporting lemmas -/

namespace FindChilluPairs

/-- The atomic rewrite never lengthens a word. -/
theorem atomicSub_len_le (l : List Char) : (atomicSub l).length ≤ l.length := by
  induction l using atomicSub.induct with
  | case1 a rest g hmap ih =>
    simp [atomicSub, hmap, List.length_cons]
    omega
  | case2 a b rest g hmap hv ih =>
    simp only [atomicSub, hmap, if_neg hv]
    simp only [List.length_cons] at ih ⊢
    omega
  | case3 a b rest hmap ih =>
    simp only [atomicSub, hmap]
    simp only [List.length_cons] at ih ⊢
    omega
  | case4 l h =>
    match l, h with
    | [], _ => simp [atomicSub]
    | [c], _ => simp [atomicSub]
    | a :: b :: rest, h => exact absurd rfl (h a b rest)

/-- A key-bearing word strictly shrinks under the rewrite. -/
theorem atomicSub_len_lt {l : List Char} (h : hasKey l = true) :
    (atomicSub l).length < l.length := by
  induction l using hasKey.induct with
  | case1 a b rest ih =>
    simp only [hasKey, Bool.or_eq_true, Bool.and_eq_true] at h
    rcases h with ⟨hsome, hv⟩ | htail
    · rcases hopt : pairMap a with _ | g
      · rw [hopt] at hsome
        simp at hsome
      · have hveq : b = virama := by
          simpa using hv
        subst hveq
        simp [atomicSub, hopt, List.length_cons]
        have := atomicSub_len_le rest
        omega
    · have ihl := ih htail
      rcases hopt : pairMap a with _ | g
      · simp only [atomicSub, hopt, List.length_cons] at ihl ⊢
        omega
      · by_cases hv : b = virama
        · subst hv
          simp [atomicSub, hopt, List.length_cons]
          have := atomicSub_len_le rest
          omega
        · simp only [atomicSub, hopt, if_neg hv, List.length_cons] at ihl ⊢
          omega
  | case2 l hl =>
    match l, hl with
    | [], _ => simp [hasKey] at h
    | [c], _ => simp [hasKey] at h
    | a :: b :: rest, hl => exact absurd rfl (hl a b rest)

/-- A keyless word is untouched by the rewrite. -/
theorem atomicSub_eq_of_not_hasKey {l : List Char} (h : hasKey l = false) :
    atomicSub l = l := by
  induction l using hasKey.induct with
  | case1 a b rest ih =>
    simp only [hasKey, Bool.or_eq_false_iff, Bool.and_eq_false_iff] at h
    rcases h with ⟨hhead, htail⟩
    have ihl := ih htail
    rcases hopt : pairMap a with _ | g
    · simp [atomicSub, hopt, ihl]
    · rcases hhead with hnone | hv
      · rw [hopt] at hnone
        simp at hnone
      · have hvb : ¬b = virama := by
          intro hb
          rw [hb] at hv
          simp at hv
        simp [atomicSub, hopt, if_neg hvb, ihl]
  | case2 l hl =>
    match l, hl with
    | [], _ => simp [atomicSub]
    | [c], _ => simp [atomicSub]
    | a :: b :: rest, hl => exact absurd rfl (hl a b rest)

/-- The guard `any(k in word)` detects exactly the words the rewrite
changes. -/
theorem hasKey_iff_atomicSub_ne (l : List Char) :
    hasKey l = true ↔ atomicSub l ≠ l := by
  constructor
  · intro h heq
    have := atomicSub_len_lt h
    rw [heq] at this
    omega
  · intro h
    by_contra hk
    exact h (atomicSub_eq_of_not_hasKey (Bool.not_eq_true _ ▸ Bool.of_not_eq_true hk))

end FindChilluPairs

namespace MasterCleanup2

/-- Skipping the partial line never moves the stream backwards. -/
theorem adjustStart_ge (lines : List (Nat × List Char)) (start : Nat) :
    start ≤ adjustStart lines start := by
  unfold adjustStart
  cases h : lines.find? (fun p => p.1 ≤ start && start < p.1 + bytesLen p.2) with
  | none => exact Nat.le_refl _
  | some p =>
    show start ≤ p.1 + bytesLen p.2
    have hp := List.find?_some h
    simp only [Bool.and_eq_true, decide_eq_true_eq] at hp
    omega

/-- Every chunk the loop emits starts at or after the loop's cursor. -/
theorem chunksLoop_start_le (size cs : Nat) :
    ∀ (k start : Nat), ∀ x ∈ chunksLoop size cs k start, start ≤ x.1 := by
  intro k
  induction k with
  | zero => intro start x hx; simp [chunksLoop] at hx
  | succ n ih =>
    intro start x hx
    simp only [chunksLoop, List.mem_cons] at hx
    rcases hx with rfl | hx
    · exact Nat.le_refl _
    · by_cases hn : n = 0
      · subst hn
        simp [chunksLoop] at hx
      · have := ih (if n = 0 then size else start + cs) x hx
        rw [if_neg hn] at this
        omega

/-- A chunk only processes lines starting inside its own byte range. -/
theorem processesLine_bounds {lines : List (Nat × List Char)}
    {se : Nat × Nat} {off : Nat} (h : processesLine lines se off = true) :
    se.1 ≤ off ∧ off < se.2 := by
  unfold processesLine at h
  simp only [Bool.and_eq_true, decide_eq_true_eq] at h
  rcases h with ⟨h1, h2⟩
  refine ⟨?_, h2⟩
  by_cases hz : se.1 = 0
  · omega
  · rw [if_neg hz] at h1
    exact Nat.le_trans (adjustStart_ge lines se.1) h1

/-- Across the chunk list, a given line start is processed at most once. -/
theorem chunksLoop_countP_le_one (lines : List (Nat × List Char))
    (off size cs : Nat) :
    ∀ (k start : Nat),
      (chunksLoop size cs k start).countP
        (fun se => processesLine lines se off) ≤ 1 := by
  intro k
  induction k with
  | zero => intro start; simp [chunksLoop]
  | succ n ih =>
    intro start
    simp only [chunksLoop, List.countP_cons]
    by_cases hp : processesLine lines
        (start, if n = 0 then size else start + cs) off = true
    · have hoff := (processesLine_bounds hp).2
      have hzero :
          (chunksLoop size cs n (if n = 0 then size else start + cs)).countP
            (fun se => processesLine lines se off) = 0 := by
        rw [List.countP_eq_zero]
        intro x hx hpx
        have hx1 := chunksLoop_start_le size cs n _ x hx
        have := (processesLine_bounds hpx).1
        simp only at hoff
        omega
      rw [hzero]
      simp [hp]
    · have hb : (processesLine lines
          (start, if n = 0 then size else start + cs) off) = false :=
        Bool.not_eq_true _ ▸ Bool.of_not_eq_true hp
      simp only [hb]
      simpa using ih (if n = 0 then size else start + cs)

end MasterCleanup2

namespace StructuralCleanup

/-- Soundness of the stray filter: in its output, every vowel sign sits on a
valid surviving base (the `prev` lookback is exactly the previous kept
character). -/
theorem strayGo_sound (prev : Option Char) (l : List Char) :
    signsHaveBases prev (strayGo prev l).1 = true := by
  induction prev, l using strayGo.induct with
  | case1 prev => simp [strayGo, signsHaveBases]
  | case2 prev g rest hcond ih =>
    simp only [strayGo, hcond, if_pos]
    exact ih
  | case3 prev g rest hcond ih =>
    simp only [strayGo, hcond, if_neg]
    simp only [signsHaveBases, Bool.and_eq_true]
    refine ⟨?_, ih⟩
    have hcond2 : (isVowelSign g && !prevIsBase prev) = false :=
      Bool.eq_false_iff.mpr hcond
    rcases Bool.and_eq_false_iff.mp hcond2 with hs | hb
    · simp [hs]
    · simp at hb
      simp [hb]

/-- Completeness of the stray filter: a stream whose vowel signs all sit on
valid bases passes through untouched, with a zero removal count. -/
theorem strayGo_complete (l : List Char) :
    ∀ (prev : Option Char), signsHaveBases prev l = true →
      strayGo prev l = (l, 0) := by
  induction l with
  | nil => intro prev _; rfl
  | cons c rest ih =>
    intro prev h
    simp only [signsHaveBases, Bool.and_eq_true] at h
    rcases h with ⟨hc, hrest⟩
    have hcond : (isVowelSign c && !prevIsBase prev) = false := by
      rcases Bool.or_eq_true_iff.mp hc with hs | hb
      · simp at hs
        simp [hs]
      · simp [hb]
    simp [strayGo, hcond, ih (some c) hrest]

end StructuralCleanup

/-- Membership transfers out of `pyStrip`. -/
theorem mem_of_mem_pyStrip {x : Char} {l : List Char} (h : x ∈ pyStrip l) :
    x ∈ l := by
  unfold pyStrip at h
  rw [List.mem_reverse] at h
  have h2 := (List.dropWhile_suffix (l := (l.dropWhile isPySpace).reverse)
    isPySpace).sublist.subset h
  rw [List.mem_reverse] at h2
  exact (List.dropWhile_suffix isPySpace).sublist.subset h2

/-- The pieces of `splitNl` never contain a newline. -/
theorem splitNl_nl_free {l : List Char} :
    ∀ p ∈ splitNl l, '\n' ∉ p := by
  induction l with
  | nil =>
    intro p hp
    simp [splitNl] at hp
    simp [hp]
  | cons c rest ih =>
    intro p hp
    by_cases hc : c = '\n'
    · subst hc
      simp only [splitNl, if_true, List.mem_cons] at hp
      rcases hp with rfl | hp
      · simp
      · exact ih p hp
    · simp only [splitNl, if_neg hc] at hp
      generalize hs : splitNl rest = s at hp
      cases s with
      | nil =>
        simp only [List.mem_singleton] at hp
        subst hp
        intro hmem
        rcases List.mem_singleton.mp hmem with heq
        exact hc heq.symm
      | cons p0 ps =>
        simp only [List.mem_cons] at hp
        rcases hp with rfl | hp
        · intro hmem
          rcases List.mem_cons.mp hmem with heq | hmem0
          · exact hc heq.symm
          · exact ih p0 (hs ▸ List.mem_cons_self p0 ps) hmem0
        · exact ih p (hs ▸ List.mem_cons_of_mem p0 hp)

/-- `joinNl` on a single line. -/
theorem joinNl_single (a : List Char) : joinNl [a] = a := by
  simp [joinNl, List.intercalate]

/-- `joinNl` peels one separator off a two-or-more-line list. -/
theorem joinNl_cons2 (a b : List Char) (t : List (List Char)) :
    joinNl (a :: b :: t) = a ++ '\n' :: joinNl (b :: t) := by
  simp [joinNl, List.intercalate, List.intersperse]

/-- A newline-free text has no triple-newline run. -/
theorem noTripleNl_of_nl_free {a : List Char} (h : '\n' ∉ a) :
    noTripleNl a = true := by
  induction a with
  | nil => rfl
  | cons c rest ih =>
    simp only [List.mem_cons, not_or] at h
    simp only [noTripleNl, Bool.and_eq_true]
    refine ⟨?_, ih h.2⟩
    have hc : ¬c = '\n' := fun he => h.1 he.symm
    simp [hc]

/-- Gluing a newline-free text, one newline, and a clean text whose head is
not a newline keeps the no-triple-newline invariant. -/
theorem noTripleNl_append {a s : List Char} (ha : '\n' ∉ a)
    (hs : noTripleNl s = true)
    (hhead : ∀ x, s.head? = some x → x ≠ '\n') :
    noTripleNl (a ++ '\n' :: s) = true := by
  induction a with
  | nil =>
    simp only [List.nil_append, noTripleNl, Bool.and_eq_true]
    refine ⟨?_, hs⟩
    cases s with
    | nil => simp
    | cons x t =>
      have := hhead x rfl
      cases t with
      | nil => simp
      | cons y u => simp [this]
  | cons c rest ih =>
    simp only [List.mem_cons, not_or] at ha
    simp only [List.cons_append, noTripleNl, Bool.and_eq_true]
    refine ⟨?_, ih ha.2⟩
    have hc : ¬c = '\n' := fun he => ha.1 he.symm
    simp [hc]

/-- Joining non-empty newline-free lines with single newlines yields a text
with no triple newline and a non-newline head. -/
theorem joinNl_noTriple (ls : List (List Char))
    (h : ∀ ln ∈ ls, ln ≠ [] ∧ '\n' ∉ ln) :
    noTripleNl (joinNl ls) = true ∧
      (∀ x, (joinNl ls).head? = some x → x ≠ '\n') := by
  induction ls with
  | nil => exact ⟨rfl, by simp [joinNl, List.intercalate]⟩
  | cons a ls' ih =>
    cases ls' with
    | nil =>
      rw [joinNl_single]
      obtain ⟨hne, hnl⟩ := h a (List.mem_cons_self a [])
      refine ⟨noTripleNl_of_nl_free hnl, ?_⟩
      intro x hx
      intro hxeq
      subst hxeq
      cases a with
      | nil => simp at hx
      | cons y t =>
        simp only [List.head?_cons, Option.some_inj] at hx
        exact hnl (hx ▸ List.mem_cons_self y t)
    | cons b t =>
      rw [joinNl_cons2]
      obtain ⟨hne, hnl⟩ := h a (List.mem_cons_self a _)
      have ihr := ih (fun ln hln => h ln (List.mem_cons_of_mem a hln))
      refine ⟨noTripleNl_append hnl ihr.1 ihr.2, ?_⟩
      intro x hx
      cases a with
      | nil => exact absurd rfl hne
      | cons y u =>
        simp only [List.cons_append, List.head?_cons, Option.some_inj] at hx
        intro hxeq
        subst hxeq
        exact hnl (hx ▸ List.mem_cons_self y u)

/-- If some prefix of length ≥ 2 of `l` satisfies `p`, `l` starts with two
`p`-characters. -/
theorem takeWhile_two {p : Char → Bool} {l : List Char}
    (h : 2 ≤ (l.takeWhile p).length) :
    ∃ a b t, l = a :: b :: t ∧ p a = true ∧ p b = true := by
  cases l with
  | nil => simp [List.takeWhile] at h
  | cons a rest =>
    cases ha : p a with
    | false => simp [List.takeWhile_cons, ha] at h
    | true =>
      cases rest with
      | nil => simp [List.takeWhile_cons, ha] at h
      | cons b t =>
        cases hb : p b with
        | false => simp [List.takeWhile_cons, ha, hb] at h
        | true => exact ⟨a, b, t, rfl, ha, hb⟩

/-- Without a triple-newline run, the `\n{3,}` collapse is the identity. -/
theorem multiBlankSub_of_noTriple {l : List Char}
    (h : noTripleNl l = true) : StructuralCleanup.multiBlankSub l = l := by
  induction l with
  | nil => simp [StructuralCleanup.multiBlankSub]
  | cons c rest ih =>
    simp only [noTripleNl, Bool.and_eq_true] at h
    obtain ⟨hhead, htail⟩ := h
    by_cases hc : c = '\n'
    · subst hc
      have hrun : ¬(3 ≤ (rest.takeWhile (· = '\n')).length + 1) := by
        intro habs
        have h2 : 2 ≤ (rest.takeWhile (· = '\n')).length := by omega
        obtain ⟨a, b, t, rfl, hpa, hpb⟩ := takeWhile_two h2
        simp only [decide_eq_true_eq] at hpa hpb
        subst hpa
        subst hpb
        simp at hhead
      simp only [StructuralCleanup.multiBlankSub, if_pos rfl, if_neg hrun]
      exact congrArg _ (ih htail)
    · simp only [StructuralCleanup.multiBlankSub, if_neg hc]
      exact congrArg _ (ih htail)

/-- The blank-line collapse contributes nothing after the line stage: every
line the stage keeps is non-empty and newline-free, so no triple newline can
survive to step 9. -/
theorem multiBlankSub_lineStage (x : List Char) :
    StructuralCleanup.multiBlankSub (StructuralCleanup.lineStage x) =
      StructuralCleanup.lineStage x := by
  unfold StructuralCleanup.lineStage
  have hlines : ∀ ln ∈ ((splitNl x).map pyStrip).filter
      (fun ln => !ln.isEmpty && !StructuralCleanup.asteriskLine ln),
      ln ≠ [] ∧ '\n' ∉ ln := by
    intro ln hln
    rw [List.mem_filter] at hln
    obtain ⟨hmem, hpred⟩ := hln
    simp only [Bool.and_eq_true, Bool.not_eq_true'] at hpred
    constructor
    · intro he
      rw [he] at hpred
      simp [List.isEmpty] at hpred
    · rw [List.mem_map] at hmem
      obtain ⟨p, hp, rfl⟩ := hmem
      intro hmem2
      exact splitNl_nl_free p hp (mem_of_mem_pyStrip hmem2)
  exact multiBlankSub_of_noTriple (joinNl_noTriple _ hlines).1

namespace ChilluHandling

/-- The six pattern consonants, as concrete scalars. -/
theorem chilluSix_cases {c : Char} (h : chilluSix c = true) :
    c = 'ണ' ∨ c = 'ന' ∨ c = 'ര' ∨ c = 'ല' ∨ c = 'ള' ∨ c = 'ക' := by
  simp only [chilluSix, Bool.or_eq_true, decide_eq_true_eq] at h
  tauto

/-- A pattern consonant is not the virama. -/
theorem six_ne_virama {c : Char} (h : chilluSix c = true) : c ≠ virama := by
  rcases chilluSix_cases h with rfl | rfl | rfl | rfl | rfl | rfl <;> decide

/-- A pattern consonant is a Malayalam consonant. -/
theorem six_isMalCons {c : Char} (h : chilluSix c = true) :
    isMalCons c = true := by
  rcases chilluSix_cases h with rfl | rfl | rfl | rfl | rfl | rfl <;> decide

/-- A pattern consonant is not a zero-width joiner or non-joiner. -/
theorem six_not_joiner {c : Char} (h : chilluSix c = true) :
    c ≠ zwj ∧ c ≠ zwnj := by
  rcases chilluSix_cases h with rfl | rfl | rfl | rfl | rfl | rfl <;>
    exact ⟨by decide, by decide⟩

/-- The scalars `chillu_map.get` can produce: the base, the virama, or an
atomic chillu. -/
theorem mem_chilluMapGet {x c : Char} (h : x ∈ chilluMapGet c) :
    x = c ∨ x = virama ∨ x = 'ൺ' ∨ x = 'ൻ' ∨ x = 'ർ' ∨ x = 'ൽ' ∨ x = 'ൾ' := by
  unfold chilluMapGet at h
  split_ifs at h <;> simp only [List.mem_singleton, List.mem_cons,
    List.mem_nil_iff, or_false] at h <;> tauto

/-- For a pattern consonant, `replace_callback` (with the re-appended
group 3) never emits a zero-width joiner or non-joiner: the appended group-3
scalar is itself filtered by the lambda. -/
theorem callback_no_joiner {c : Char} (hc : chilluSix c = true)
    (sj g3 : Option Char) :
    ∀ x ∈ callback c sj g3, x ≠ zwj ∧ x ≠ zwnj := by
  intro x hx
  have hbase : ∀ y, y = c ∨ y = virama ∨ y = 'ൺ' ∨ y = 'ൻ' ∨ y = 'ർ' ∨
      y = 'ൽ' ∨ y = 'ൾ' → y ≠ zwj ∧ y ≠ zwnj := by
    intro y hy
    rcases hy with rfl | rfl | rfl | rfl | rfl | rfl | rfl
    · exact six_not_joiner hc
    all_goals exact ⟨by decide, by decide⟩
  unfold callback at hx
  rw [List.mem_append] at hx
  rcases hx with hx | hx
  · split_ifs at hx
    · apply hbase
      simp only [List.mem_cons, List.mem_singleton] at hx
      tauto
    · exact hbase x (mem_chilluMapGet hx)
    · rcases g3 with _ | g
      · exact hbase x (mem_chilluMapGet hx)
      · simp only at hx
        split_ifs at hx
        · apply hbase
          simp only [List.mem_cons, List.mem_singleton] at hx
          tauto
        · exact hbase x (mem_chilluMapGet hx)
  · rcases g3 with _ | g
    · simp at hx
    · simp only at hx
      rcases hjg : (decide (g = zwj) || decide (g = zwnj)) with _ | _
      · rw [hjg] at hx
        simp only [Bool.false_eq_true, if_false, List.mem_singleton] at hx
        subst hx
        rcases Bool.or_eq_false_iff.mp hjg with ⟨h1, h2⟩
        exact ⟨by simpa using h1, by simpa using h2⟩
      · rw [hjg] at hx
        simp at hx

end ChilluHandling

namespace ChilluHandling

/-- Unfolding of the scan on a final bare consonant+virama. -/
theorem substChillu_pair {c v : Char}
    (hcv : (chilluSix c && decide (v = virama)) = true) :
    substChillu [c, v] = callback c none none := by
  rw [substChillu.eq_def]
  simp [hcv]

/-- Unfolding of the scan on consonant+virama+joiner at end of input. -/
theorem substChillu_joiner_end {c v g : Char}
    (hcv : (chilluSix c && decide (v = virama)) = true)
    (hg : (decide (g = zwj) || decide (g = zwnj)) = true) :
    substChillu [c, v, g] = callback c (some g) none := by
  rw [substChillu.eq_def]
  simp [hcv, hg]

/-- Unfolding of the scan on consonant+virama+joiner+lookahead. -/
theorem substChillu_joiner_cont {c v g g1 : Char} {rest3 : List Char}
    (hcv : (chilluSix c && decide (v = virama)) = true)
    (hg : (decide (g = zwj) || decide (g = zwnj)) = true) :
    substChillu (c :: v :: g :: g1 :: rest3) =
      callback c (some g) (some g1) ++ substChillu rest3 := by
  rw [substChillu.eq_def]
  simp [hcv, hg]

/-- Unfolding of the scan on consonant+virama+plain lookahead. -/
theorem substChillu_plain {c v g : Char} {rest3 : List Char}
    (hcv : (chilluSix c && decide (v = virama)) = true)
    (hg : (decide (g = zwj) || decide (g = zwnj)) = false) :
    substChillu (c :: v :: g :: rest3) =
      callback c none (some g) ++ substChillu rest3 := by
  rw [substChillu.eq_def]
  simp [hcv, hg]

/-- Unfolding of the scan on an unmatched head scalar. -/
theorem substChillu_copy {c v : Char} {rest : List Char}
    (hcv : (chilluSix c && decide (v = virama)) = false) :
    substChillu (c :: v :: rest) = c :: substChillu (v :: rest) := by
  rw [substChillu.eq_def]
  simp [hcv]

/-- Any joiner occurring in the scan's output was copied from the input. -/
theorem subst_joiner_mem {x : Char} (hx12 : x = zwj ∨ x = zwnj) :
    ∀ {l : List Char}, x ∈ substChillu l → x ∈ l := by
  intro l hx
  induction l using substChillu.induct with
  | case1 => simp [substChillu] at hx
  | case2 c =>
    simpa [substChillu] using hx
  | case3 c v hcv =>
    rw [substChillu_pair hcv] at hx
    have := callback_no_joiner (Bool.and_eq_true .. ▸ hcv).1 none none x hx
    rcases hx12 with rfl | rfl
    · exact absurd rfl this.1
    · exact absurd rfl this.2
  | case4 c v hcv g hg =>
    rw [substChillu_joiner_end hcv hg] at hx
    have := callback_no_joiner (Bool.and_eq_true .. ▸ hcv).1 (some g) none x hx
    rcases hx12 with rfl | rfl
    · exact absurd rfl this.1
    · exact absurd rfl this.2
  | case5 c v hcv g hg g1 rest3 ih =>
    rw [substChillu_joiner_cont hcv hg] at hx
    rw [List.mem_append] at hx
    rcases hx with hx | hx
    · have := callback_no_joiner (Bool.and_eq_true .. ▸ hcv).1
        (some g) (some g1) x hx
      rcases hx12 with rfl | rfl
      · exact absurd rfl this.1
      · exact absurd rfl this.2
    · have := ih hx
      simp only [List.mem_cons]
      tauto
  | case6 c v hcv g rest3 hg ih =>
    have hg2 : (decide (g = zwj) || decide (g = zwnj)) = false :=
      Bool.eq_false_iff.mpr hg
    rw [substChillu_plain hcv hg2] at hx
    rw [List.mem_append] at hx
    rcases hx with hx | hx
    · have := callback_no_joiner (Bool.and_eq_true .. ▸ hcv).1
        none (some g) x hx
      rcases hx12 with rfl | rfl
      · exact absurd rfl this.1
      · exact absurd rfl this.2
    · have := ih hx
      simp only [List.mem_cons]
      tauto
  | case7 c v rest hcv ih =>
    have hcv2 : (chilluSix c && decide (v = virama)) = false :=
      Bool.eq_false_iff.mpr hcv
    rw [substChillu_copy hcv2] at hx
    rcases List.mem_cons.mp hx with rfl | hx
    · exact List.mem_cons_self ..
    · exact List.mem_cons_of_mem _ (ih hx)

/-- On joiner-free input the final ZWJ/ZWNJ deletion is inert, so the whole
normalization is the scan alone. -/
theorem rigorous_eq_subst {l : List Char} (h1 : zwj ∉ l) (h2 : zwnj ∉ l) :
    rigorous_malayalam_normalization l = substChillu l := by
  unfold rigorous_malayalam_normalization
  rw [List.filter_eq_self]
  intro x hx
  simp only [Bool.not_eq_true', Bool.or_eq_false_iff, decide_eq_false_iff_not]
  constructor
  · intro hxe
    subst hxe
    exact h1 (subst_joiner_mem (Or.inl rfl) hx)
  · intro hxe
    subst hxe
    exact h2 (subst_joiner_mem (Or.inr rfl) hx)

end ChilluHandling

namespace ChilluHandling

/-- `chillu_map.get` never starts with the virama. -/
theorem chilluMapGet_head_ne_virama {c : Char} (hc : chilluSix c = true) :
    ∀ y, (chilluMapGet c).head? = some y → y ≠ virama := by
  rcases chilluSix_cases hc with rfl | rfl | rfl | rfl | rfl | rfl <;>
  · intro y hy
    simp [chilluMapGet] at hy
    subst hy
    decide

/-- `chillu_map.get` never returns the empty string. -/
theorem chilluMapGet_ne_nil (c : Char) : chilluMapGet c ≠ [] := by
  unfold chilluMapGet
  split_ifs <;> simp

/-- `replace_callback`'s output is never empty. -/
theorem callback_ne_nil (c : Char) (sj g3 : Option Char) :
    callback c sj g3 ≠ [] := by
  unfold callback
  intro h
  rcases List.append_eq_nil.mp h with ⟨hA, _⟩
  revert hA
  split_ifs
  · simp
  · exact chilluMapGet_ne_nil c
  · rcases g3 with _ | g
    · exact chilluMapGet_ne_nil c
    · simp only
      split_ifs
      · simp
      · exact chilluMapGet_ne_nil c

/-- `replace_callback` evaluated at an absent group 3. -/
theorem callback_none_eq (c : Char) (sj : Option Char) :
    callback c sj none =
      (if sj = some zwnj then [c, virama]
       else if sj = some zwj then chilluMapGet c
       else chilluMapGet c) ++ [] := rfl

/-- `replace_callback` evaluated at a present group 3. -/
theorem callback_some_eq (c : Char) (sj : Option Char) (g : Char) :
    callback c sj (some g) =
      (if sj = some zwnj then [c, virama]
       else if sj = some zwj then chilluMapGet c
       else if isMalCons g then [c, virama] else chilluMapGet c) ++
      (if g = zwj || g = zwnj then [] else [g]) := rfl

/-- For a pattern consonant, `replace_callback`'s output never starts with
the virama. -/
theorem callback_head_ne_virama {c : Char} (hc : chilluSix c = true)
    (sj g3 : Option Char) :
    ∀ y, (callback c sj g3).head? = some y → y ≠ virama := by
  intro y hy
  have hA : ∀ (B : List Char),
      ((chilluMapGet c ++ B).head? = some y) → y ≠ virama := by
    intro B hB
    rw [List.head?_append_of_ne_nil _ (chilluMapGet_ne_nil c)] at hB
    exact chilluMapGet_head_ne_virama hc y hB
  have hCv : ∀ (B : List Char),
      (([c, virama] ++ B).head? = some y) → y ≠ virama := by
    intro B hB
    simp only [List.cons_append, List.head?_cons, Option.some_inj] at hB
    subst hB
    exact six_ne_virama hc
  rcases g3 with _ | g
  · rw [callback_none_eq] at hy
    split_ifs at hy
    all_goals first
      | exact hCv _ hy
      | exact hA _ hy
  · rw [callback_some_eq] at hy
    split_ifs at hy
    all_goals first
      | exact hCv _ hy
      | exact hA _ hy

/-- If the input does not start with the virama, neither does the scan's
output. -/
theorem subst_head_ne_virama :
    ∀ {l : List Char}, (∀ x, l.head? = some x → x ≠ virama) →
      ∀ y, (substChillu l).head? = some y → y ≠ virama := by
  intro l
  induction l using substChillu.induct with
  | case1 =>
    intro _ y hy
    simp [substChillu] at hy
  | case2 c =>
    intro hl y hy
    rw [substChillu.eq_def] at hy
    simp only [List.head?_cons, Option.some_inj] at hy
    subst hy
    exact hl _ rfl
  | case3 c v hcv =>
    intro _ y hy
    rw [substChillu_pair hcv] at hy
    exact callback_head_ne_virama (Bool.and_eq_true .. ▸ hcv).1 none none y hy
  | case4 c v hcv g hg =>
    intro _ y hy
    rw [substChillu_joiner_end hcv hg] at hy
    exact callback_head_ne_virama (Bool.and_eq_true .. ▸ hcv).1
      (some g) none y hy
  | case5 c v hcv g hg g1 rest3 ih =>
    intro _ y hy
    rw [substChillu_joiner_cont hcv hg,
      List.head?_append_of_ne_nil _ (callback_ne_nil _ _ _)] at hy
    exact callback_head_ne_virama (Bool.and_eq_true .. ▸ hcv).1
      (some g) (some g1) y hy
  | case6 c v hcv g rest3 hg ih =>
    intro _ y hy
    rw [substChillu_plain hcv (Bool.eq_false_iff.mpr hg),
      List.head?_append_of_ne_nil _ (callback_ne_nil _ _ _)] at hy
    exact callback_head_ne_virama (Bool.and_eq_true .. ▸ hcv).1
      none (some g) y hy
  | case7 c v rest hcv ih =>
    intro hl y hy
    rw [substChillu_copy (Bool.eq_false_iff.mpr hcv)] at hy
    simp only [List.head?_cons, Option.some_inj] at hy
    subst hy
    exact hl _ rfl

/-- An unmatched head scalar is copied and the scan continues. -/
theorem substChillu_copy_head {g : Char} (hg : chilluSix g = false)
    (T : List Char) : substChillu (g :: T) = g :: substChillu T := by
  cases T with
  | nil =>
    rw [substChillu.eq_def]
    rw [substChillu.eq_def]
  | cons v rest =>
    exact substChillu_copy (by simp [hg])

end ChilluHandling

namespace ChilluHandling

/-- On joiner-free input the scan is idempotent: every replacement it makes
leaves either a non-convertible scalar (an atomic chillu), an explicitly kept
consonant+virama+consonant triple that the second pass re-keeps, or a copied
scalar, and the second pass walks the same block structure. -/
theorem substChillu_idem :
    ∀ {l : List Char}, zwj ∉ l → zwnj ∉ l →
      substChillu (substChillu l) = substChillu l := by
  intro l
  induction l using substChillu.induct with
  | case1 =>
    intro _ _
    have h0 : substChillu [] = [] := by rw [substChillu.eq_def]
    rw [h0, h0]
  | case2 c =>
    intro _ _
    have h1 : substChillu [c] = [c] := by rw [substChillu.eq_def]
    rw [h1, h1]
  | case3 c v hcv =>
    intro _ _
    have hsix := (Bool.and_eq_true .. ▸ hcv).1
    have hveq : v = virama := of_decide_eq_true (Bool.and_eq_true .. ▸ hcv).2
    subst hveq
    rw [substChillu_pair hcv]
    rcases chilluSix_cases hsix with rfl | rfl | rfl | rfl | rfl | rfl <;>
      decide
  | case4 c v hcv g hg =>
    intro h1 h2
    have hj : g = zwj ∨ g = zwnj := by simpa using hg
    rcases hj with rfl | rfl
    · exact absurd (by simp) h1
    · exact absurd (by simp) h2
  | case5 c v hcv g hg g1 rest3 ih =>
    intro h1 h2
    have hj : g = zwj ∨ g = zwnj := by simpa using hg
    rcases hj with rfl | rfl
    · exact absurd (by simp) h1
    · exact absurd (by simp) h2
  | case6 c v hcv g rest3 hg ih =>
    intro h1 h2
    have hg2 : (decide (g = zwj) || decide (g = zwnj)) = false :=
      Bool.eq_false_iff.mpr hg
    have hsix := (Bool.and_eq_true .. ▸ hcv).1
    have hveq : v = virama := of_decide_eq_true (Bool.and_eq_true .. ▸ hcv).2
    subst hveq
    have h1r : zwj ∉ rest3 := fun hm => h1 (by simp [hm])
    have h2r : zwnj ∉ rest3 := fun hm => h2 (by simp [hm])
    have IH := ih h1r h2r
    rw [substChillu_plain hcv hg2]
    have hgj : ¬(g = zwj || g = zwnj) = true := by
      simpa using Bool.eq_false_iff.mp hg2
    by_cases hm : isMalCons g = true
    · have hcb : callback c none (some g) = [c, virama, g] := by
        rw [callback_some_eq]
        simp [hm, hgj]
      have hcv2 : (chilluSix c && decide (virama = virama)) = true := by
        simp [hsix]
      rw [hcb]
      simp only [List.cons_append, List.nil_append]
      rw [substChillu_plain hcv2 hg2, IH, hcb]
      simp
    · have hmf : isMalCons g = false := Bool.eq_false_iff.mpr hm
      have hgsix : chilluSix g = false := by
        rcases hb : chilluSix g with _ | _
        · rfl
        · exact absurd (six_isMalCons hb) (by simp [hmf])
      have hcb : callback c none (some g) = chilluMapGet c ++ [g] := by
        rw [callback_some_eq]
        simp [hmf, hgj]
      have hcv2 : (chilluSix c && decide (virama = virama)) = true := by
        simp [hsix]
      rcases chilluSix_cases hsix with rfl | rfl | rfl | rfl | rfl | rfl
      · rw [hcb]
        simp only [chilluMapGet, Char.reduceEq, reduceIte, List.cons_append, List.nil_append]
        rw [substChillu_copy_head (by decide), substChillu_copy_head hgsix, IH]
      · rw [hcb]
        simp only [chilluMapGet, Char.reduceEq, reduceIte, List.cons_append, List.nil_append]
        rw [substChillu_copy_head (by decide), substChillu_copy_head hgsix, IH]
      · rw [hcb]
        simp only [chilluMapGet, Char.reduceEq, reduceIte, List.cons_append, List.nil_append]
        rw [substChillu_copy_head (by decide), substChillu_copy_head hgsix, IH]
      · rw [hcb]
        simp only [chilluMapGet, Char.reduceEq, reduceIte, List.cons_append, List.nil_append]
        rw [substChillu_copy_head (by decide), substChillu_copy_head hgsix, IH]
      · rw [hcb]
        simp only [chilluMapGet, Char.reduceEq, reduceIte, List.cons_append, List.nil_append]
        rw [substChillu_copy_head (by decide), substChillu_copy_head hgsix, IH]
      · rw [hcb]
        simp only [chilluMapGet, Char.reduceEq, reduceIte, List.cons_append, List.nil_append]
        rw [substChillu_plain (by decide) hg2, IH, hcb]
        simp [chilluMapGet]
  | case7 c v rest hcv ih =>
    intro h1 h2
    have hcv2 : (chilluSix c && decide (v = virama)) = false :=
      Bool.eq_false_iff.mpr hcv
    have h1r : zwj ∉ v :: rest := fun hm => h1 (List.mem_cons_of_mem _ hm)
    have h2r : zwnj ∉ v :: rest := fun hm => h2 (List.mem_cons_of_mem _ hm)
    have IH := ih h1r h2r
    rw [substChillu_copy hcv2]
    rcases Bool.and_eq_false_iff.mp hcv2 with hc6 | hvv
    · rw [substChillu_copy_head hc6, IH]
    · have hvne : v ≠ virama := by simpa using hvv
      have hhead : ∀ y, (substChillu (v :: rest)).head? = some y →
          y ≠ virama := by
        apply subst_head_ne_virama
        intro x hx
        simp only [List.head?_cons, Option.some_inj] at hx
        subst hx
        exact hvne
      cases hT : substChillu (v :: rest) with
      | nil =>
        rw [substChillu.eq_def]
      | cons t0 ts =>
        have ht0 : t0 ≠ virama := hhead t0 (by rw [hT]; rfl)
        have hcond : (chilluSix c && decide (t0 = virama)) = false := by
          simp [ht0]
        rw [substChillu_copy hcond, ← hT, IH]

end ChilluHandling

/-- The head of what `dropWhile` leaves fails the predicate. -/
theorem head_dropWhile_false {α : Type} (p : α → Bool) :
    ∀ (l : List α) (y : α), (l.dropWhile p).head? = some y → p y = false := by
  intro l
  induction l with
  | nil => intro y h; simp [List.dropWhile] at h
  | cons x rest ih =>
    intro y h
    rw [List.dropWhile_cons] at h
    by_cases hx : p x = true
    · rw [if_pos hx] at h; exact ih y h
    · rw [if_neg hx] at h
      simp only [List.head?_cons, Option.some.injEq] at h
      subst h
      exact Bool.eq_false_iff.mpr hx

/-- `getLast?` skips the head when the tail is nonempty. -/
theorem getLast?_cons_of_ne_nil {α : Type} (a : α) {l : List α} (h : l ≠ []) :
    (a :: l).getLast? = l.getLast? := by
  cases l with
  | nil => exact absurd rfl h
  | cons b t => exact List.getLast?_cons_cons

/-- `takeWhile`/`dropWhile` on an all-true block followed by a failing (or
empty) remainder split exactly at the block boundary. -/
theorem takeWhile_append_all {α : Type} (p : α → Bool) :
    ∀ (a b : List α), (∀ x ∈ a, p x = true) →
    (∀ y, b.head? = some y → p y = false) →
    (a ++ b).takeWhile p = a ∧ (a ++ b).dropWhile p = b := by
  intro a
  induction a with
  | nil =>
    intro b _ hb
    cases b with
    | nil => exact ⟨rfl, rfl⟩
    | cons y ys =>
      have hy : p y = false := hb y rfl
      simp [List.takeWhile_cons, List.dropWhile_cons, hy]
  | cons x a' ih =>
    intro b ha hb
    have hx : p x = true := ha x (List.mem_cons_self ..)
    have := ih b (fun z hz => ha z (List.mem_cons_of_mem _ hz)) hb
    simp [List.takeWhile_cons, List.dropWhile_cons, hx, this.1, this.2]

namespace CleanVisarga

/-- The `getLast?` of the filtered enumeration computes `lv`: for a tail
enumerated from an offset of at least 1, the last index carrying a Visarga
is the recursive scan's answer. -/
theorem filtered_getLast_eq_lv (t : List Char) : ∀ i, 1 ≤ i →
    (((t.enumFrom i).filter
        (fun p => decide (1 ≤ p.1) && decide (p.2 = visarga))).getLast?).map
      (·.1) = lv i t := by
  induction t with
  | nil => intro i _; rfl
  | cons x rest ih =>
    intro i hi
    rw [List.enumFrom_cons, List.filter_cons]
    have hnext := ih (i + 1) (Nat.le_succ_of_le hi)
    cases hlv : lv (i + 1) rest with
    | some k =>
      rw [hlv] at hnext
      have hne : (rest.enumFrom (i + 1)).filter
          (fun p => decide (1 ≤ p.1) && decide (p.2 = visarga)) ≠ [] := by
        intro hnil
        rw [hnil] at hnext
        exact Option.noConfusion hnext
      by_cases hx : (decide (1 ≤ (i, x).1) && decide ((i, x).2 = visarga)) = true
      · rw [if_pos hx, getLast?_cons_of_ne_nil _ hne, hnext]
        simp only [lv, hlv]
      · rw [if_neg hx, hnext]
        simp only [lv, hlv]
    | none =>
      rw [hlv] at hnext
      have hnil : (rest.enumFrom (i + 1)).filter
          (fun p => decide (1 ≤ p.1) && decide (p.2 = visarga)) = [] := by
        rw [← List.getLast?_eq_none_iff]
        cases hgl : ((rest.enumFrom (i + 1)).filter
            (fun p => decide (1 ≤ p.1) && decide (p.2 = visarga))).getLast? with
        | none => rfl
        | some q => rw [hgl] at hnext; exact Option.noConfusion hnext
      by_cases hx : x = visarga
      · have hcond : (decide (1 ≤ (i, x).1) && decide ((i, x).2 = visarga)) = true := by
          simp [hi, hx]
        rw [if_pos hcond, hnil]
        simp [lv, hlv, hx]
      · have hcond : (decide (1 ≤ (i, x).1) && decide ((i, x).2 = visarga)) = false := by
          simp [hx]
        rw [Bool.eq_false_iff] at hcond
        rw [if_neg hcond, hnil]
        simp [lv, hlv, hx]

end CleanVisarga

namespace CleanVisarga

/-- The regex's match end equals the recursive last-Visarga scan of the
run's tail. -/
theorem lastVisargaIdx_cons (c : Char) (t : List Char) :
    lastVisargaIdx (c :: t) = lv 1 t := by
  unfold lastVisargaIdx
  rw [List.enum_cons, List.filter_cons]
  have h0 : (decide (1 ≤ (0, c).1) && decide ((0, c).2 = visarga)) = false := by
    simp
  rw [Bool.eq_false_iff] at h0
  rw [if_neg h0]
  exact filtered_getLast_eq_lv t 1 (Nat.le_refl 1)

/-- The scan finds nothing exactly when the tail holds no Visarga. -/
theorem lv_eq_none_iff (t : List Char) : ∀ i, lv i t = none ↔ visarga ∉ t := by
  induction t with
  | nil => intro i; simp [lv]
  | cons x rest ih =>
    intro i
    simp only [lv]
    cases h : lv (i + 1) rest with
    | some k =>
      have : visarga ∈ rest := by
        by_contra hmem
        rw [(ih (i + 1)).mpr hmem] at h
        exact Option.noConfusion h
      simp [this]
    | none =>
      have hrest : visarga ∉ rest := (ih (i + 1)).mp h
      by_cases hx : x = visarga
      · simp [hx, if_pos rfl]
      · have hx2 : ¬visarga = x := fun hh => hx hh.symm
        simp [hx, hx2, hrest]

/-- What a successful scan yields: an offset at least `i`, within the tail,
with no Visarga after it. -/
theorem lv_some_facts (t : List Char) : ∀ i k, lv i t = some k →
    i ≤ k ∧ k - i < t.length ∧ visarga ∉ t.drop (k + 1 - i) := by
  induction t with
  | nil => intro i k h; exact Option.noConfusion h
  | cons x rest ih =>
    intro i k h
    simp only [lv] at h
    cases hrec : lv (i + 1) rest with
    | some m =>
      rw [hrec] at h
      have hk : m = k := by injection h
      subst hk
      obtain ⟨h1, h2, h3⟩ := ih (i + 1) m hrec
      refine ⟨Nat.le_of_succ_le h1, ?_, ?_⟩
      · simp only [List.length_cons]
        omega
      · have he : m + 1 - i = (m + 1 - (i + 1)) + 1 := by omega
        rw [he, List.drop_succ_cons]
        exact h3
    | none =>
      rw [hrec] at h
      by_cases hx : x = visarga
      · rw [if_pos hx] at h
        have hk : i = k := by injection h
        subst hk
        refine ⟨Nat.le_refl i, by simp, ?_⟩
        have he : i + 1 - i = 1 := by omega
        rw [he, List.drop_succ_cons, List.drop_zero]
        exact (lv_eq_none_iff rest (i + 1)).mp hrec
      · rw [if_neg hx] at h
        exact Option.noConfusion h

end CleanVisarga

namespace CleanVisarga

/-- Any two sufficient fuels drive the segmentation to the same answer. -/
theorem wsRunsFuel_congr : ∀ (f1 f2 : Nat) (l : List Char),
    l.length ≤ f1 → l.length ≤ f2 → wsRunsFuel f1 l = wsRunsFuel f2 l := by
  intro f1
  induction f1 with
  | zero =>
    intro f2 l h1 _
    have : l = [] := List.length_eq_zero.mp (Nat.le_zero.mp h1)
    subst this
    cases f2 <;> rfl
  | succ f1 ih =>
    intro f2 l h1 h2
    cases l with
    | nil => cases f2 <;> rfl
    | cons c rest =>
      cases f2 with
      | zero => exact absurd h2 (by simp)
      | succ f2 =>
        simp only [List.length_cons, Nat.succ_le_succ_iff] at h1 h2
        simp only [wsRunsFuel]
        by_cases hc : isPySpace c
        · rw [if_pos hc, if_pos hc, ih f2 rest h1 h2]
        · rw [if_neg hc, if_neg hc,
            ih f2 (rest.dropWhile (fun x => !isPySpace x))
              (Nat.le_trans (dropWhile_len_le ..) h1)
              (Nat.le_trans (dropWhile_len_le ..) h2)]

/-- `wsRuns` on the empty text. -/
theorem wsRuns_nil : wsRuns [] = [] := rfl

/-- `wsRuns` puts a whitespace scalar in a segment of its own. -/
theorem wsRuns_ws {c : Char} (h : isPySpace c = true) (rest : List Char) :
    wsRuns (c :: rest) = [c] :: wsRuns rest := by
  show wsRunsFuel (rest.length + 1) (c :: rest) = _
  simp only [wsRunsFuel, if_pos h]
  rfl

/-- `wsRuns` opens a maximal non-whitespace run at a non-whitespace scalar. -/
theorem wsRuns_nonws {c : Char} (h : isPySpace c = false) (rest : List Char) :
    wsRuns (c :: rest) =
      (c :: rest.takeWhile (fun x => !isPySpace x)) ::
        wsRuns (rest.dropWhile (fun x => !isPySpace x)) := by
  show wsRunsFuel (rest.length + 1) (c :: rest) = _
  simp only [wsRunsFuel, h, Bool.false_eq_true, if_false]
  rw [wsRunsFuel_congr rest.length (rest.dropWhile (fun x => !isPySpace x)).length
    (rest.dropWhile (fun x => !isPySpace x)) (dropWhile_len_le ..) (Nat.le_refl _)]
  rfl

/-- A Visarga-free all-non-whitespace block followed by whitespace-or-end
passes through the spec rule unchanged, segment by segment. -/
theorem visargaSpec_block (valid : List (List Char)) (t d : List Char)
    (ht : ∀ x ∈ t, isPySpace x = false) (hv : visarga ∉ t)
    (hd : ∀ y, d.head? = some y → isPySpace y = true) :
    visargaSpec valid (t ++ d) = t ++ visargaSpec valid d := by
  cases t with
  | nil => simp
  | cons x t' =>
    have hsplit := takeWhile_append_all (fun z => !isPySpace z) t' d
      (fun z hz => by simp [ht z (List.mem_cons_of_mem _ hz)])
      (fun y hy => by simp [hd y hy])
    unfold visargaSpec
    rw [List.cons_append, wsRuns_nonws (ht x (List.mem_cons_self ..)),
      hsplit.1, hsplit.2, List.map_cons, List.flatten_cons]
    have hrun : visargaRunSub valid (x :: t') = x :: t' := by
      have hnone : lv 1 t' = none :=
        (lv_eq_none_iff t' 1).mpr (fun hm => hv (List.mem_cons_of_mem _ hm))
      simp only [visargaRunSub, hnone]
    rw [hrun]

end CleanVisarga

namespace CleanVisarga

/-- The fuelled regex scan equals the per-run spec rule whenever the fuel
covers the text. -/
theorem cleanTextFuel_eq_spec (valid : List (List Char)) :
    ∀ (fuel : Nat) (l : List Char), l.length ≤ fuel →
      cleanTextFuel valid fuel l = visargaSpec valid l := by
  intro fuel
  induction fuel with
  | zero =>
    intro l hl
    have : l = [] := List.length_eq_zero.mp (Nat.le_zero.mp hl)
    subst this
    rfl
  | succ fuel ih =>
    intro l hl
    cases l with
    | nil => rfl
    | cons c rest =>
      simp only [List.length_cons, Nat.succ_le_succ_iff] at hl
      by_cases hc : isPySpace c
      · have hstep : cleanTextFuel valid (fuel + 1) (c :: rest) =
            c :: cleanTextFuel valid fuel rest := by
          simp only [cleanTextFuel, if_pos hc]
        rw [hstep, ih rest hl]
        unfold visargaSpec
        rw [wsRuns_ws hc, List.map_cons, List.flatten_cons]
        rfl
      · have hc' : isPySpace c = false := Bool.eq_false_iff.mpr hc
        have hrest : rest = rest.takeWhile (fun x => !isPySpace x) ++
            rest.dropWhile (fun x => !isPySpace x) :=
          (List.takeWhile_append_dropWhile _ rest).symm
        have ht' : ∀ x ∈ rest.takeWhile (fun x => !isPySpace x),
            isPySpace x = false := by
          intro x hx
          have := List.mem_takeWhile_imp hx
          simpa using this
        have hd' : ∀ y, (rest.dropWhile (fun x => !isPySpace x)).head? = some y →
            isPySpace y = true := by
          intro y hy
          have := head_dropWhile_false _ rest y hy
          simpa using this
        have hstep : cleanTextFuel valid (fuel + 1) (c :: rest) =
            match lastVisargaIdx (c :: rest.takeWhile (fun x => !isPySpace x)) with
            | some k =>
              (if (c :: rest.takeWhile (fun x => !isPySpace x)).take (k + 1) ∈ valid
               then (c :: rest.takeWhile (fun x => !isPySpace x)).take (k + 1)
               else (c :: rest.takeWhile (fun x => !isPySpace x)).take k ++ [':'])
                ++ cleanTextFuel valid fuel ((c :: rest).drop (k + 1))
            | none => c :: cleanTextFuel valid fuel rest := by
          simp only [cleanTextFuel, if_neg hc]
        rw [hstep, lastVisargaIdx_cons]
        unfold visargaSpec
        rw [wsRuns_nonws hc', List.map_cons, List.flatten_cons]
        cases hk : lv 1 (rest.takeWhile (fun x => !isPySpace x)) with
        | none =>
          have hv : visarga ∉ rest.takeWhile (fun x => !isPySpace x) :=
            (lv_eq_none_iff _ 1).mp hk
          have hb := visargaSpec_block valid
            (rest.takeWhile (fun x => !isPySpace x))
            (rest.dropWhile (fun x => !isPySpace x)) ht' hv hd'
          rw [ih rest hl]
          conv_lhs => rw [hrest]
          rw [hb]
          have hrun : visargaRunSub valid
              (c :: rest.takeWhile (fun x => !isPySpace x)) =
                c :: rest.takeWhile (fun x => !isPySpace x) := by
            simp only [visargaRunSub, hk]
          rw [hrun]
          rfl
        | some k =>
          obtain ⟨hk1, hk2, hk3⟩ := lv_some_facts _ 1 k hk
          have hkt : k ≤ (rest.takeWhile (fun x => !isPySpace x)).length := by
            omega
          have hk3' : visarga ∉ (rest.takeWhile (fun x => !isPySpace x)).drop k := by
            have : k + 1 - 1 = k := by omega
            rwa [this] at hk3
          have hdrop : (c :: rest).drop (k + 1) =
              (rest.takeWhile (fun x => !isPySpace x)).drop k ++
                rest.dropWhile (fun x => !isPySpace x) := by
            rw [List.drop_succ_cons]
            conv_lhs => rw [hrest]
            exact List.drop_append_of_le_length hkt
          have hlen : ((rest.takeWhile (fun x => !isPySpace x)).drop k ++
              rest.dropWhile (fun x => !isPySpace x)).length ≤ fuel := by
            have h1 : (rest.takeWhile (fun x => !isPySpace x)).length +
                (rest.dropWhile (fun x => !isPySpace x)).length = rest.length := by
              have h2 := congrArg List.length hrest
              simp only [List.length_append] at h2
              omega
            simp only [List.length_append, List.length_drop]
            omega
          have hb := visargaSpec_block valid
            ((rest.takeWhile (fun x => !isPySpace x)).drop k)
            (rest.dropWhile (fun x => !isPySpace x))
            (fun x hx => ht' x (List.mem_of_mem_drop hx)) hk3' hd'
          simp only [hdrop, ih _ hlen, hb]
          have hrun : visargaRunSub valid
              (c :: rest.takeWhile (fun x => !isPySpace x)) =
              (if (c :: rest.takeWhile (fun x => !isPySpace x)).take (k + 1) ∈ valid
               then (c :: rest.takeWhile (fun x => !isPySpace x)).take (k + 1)
               else (c :: rest.takeWhile (fun x => !isPySpace x)).take k ++ [':'])
                ++ (c :: rest.takeWhile (fun x => !isPySpace x)).drop (k + 1) := by
            simp only [visargaRunSub, hk]
          rw [hrun, List.drop_succ_cons, List.append_assoc]
          rfl

end CleanVisarga



/-! ## Claim theorems -/

/-- C1: the claim says the chunked parallel processor is byte-identical to
sequential processing for every worker count — in particular 1 vs 8.  The
code is wrong: a worker whose byte range starts exactly at a line boundary
discards that whole line (`f_in.buffer.readline()` skips a *full* line when
no partial line precedes it), so on a 64-byte file of eight 8-byte lines the
8-worker run keeps only the first line while the 1-worker run keeps all
eight. -/
theorem c1_chunked_vs_sequential_differs :
    MasterCleanup2.chunkedRun [] 8
        "abcdefg\nabcdefg\nabcdefg\nabcdefg\nabcdefg\nabcdefg\nabcdefg\nabcdefg\n".toList ≠
      MasterCleanup2.chunkedRun [] 1
        "abcdefg\nabcdefg\nabcdefg\nabcdefg\nabcdefg\nabcdefg\nabcdefg\nabcdefg\n".toList := by
  decide

/-- C2: the claim says a consonant+virama+joiner resolves to *that
consonant's own* atomic chillu.  chillu_handling.py has the NN and LL chillus
swapped (its own comments, master_cleanup_1 and find_chillu_pairs all map
ണ→U+0D7A and ള→U+0D7E): on ണ+virama+ZWJ `rigorous_malayalam_normalization`
returns chillu LL while `normalize_zwj` returns chillu NN. -/
theorem c2_chillu_nn_ll_swapped :
    ChilluHandling.rigorous_malayalam_normalization ['ണ', virama, zwj] = ['ൾ'] ∧
    MasterCleanup1.normalize_zwj ['ണ', virama, zwj] = ['ൺ'] ∧
    ChilluHandling.rigorous_malayalam_normalization ['ള', virama, zwj] = ['ൺ'] ∧
    MasterCleanup1.normalize_zwj ['ള', virama, zwj] = ['ൾ'] ∧
    ('ൾ' : Char) ≠ 'ൺ' := by
  decide

/-- C3 counterexample: the claim says a mid-token Visarga is never modified,
but `clean_text` of clean_visarga.py matches `(\S+)(ഃ)` with no trailing
whitespace requirement, so with an empty ValidatedMapping the mid-token
Visarga of "ദുഃഖം" is rewritten to a colon. -/
theorem c3_midtoken_visarga_rewritten :
    CleanVisarga.clean_text [] "ദുഃഖം".toList = "ദു:ഖം".toList ∧
      "ദു:ഖം".toList ≠ "ദുഃഖം".toList := by
  constructor
  · decide
  · decide

/-- C3 amended: for every ValidatedMapping and every input text, the
rewrite applies within each maximal run of non-whitespace characters to
exactly one candidate — the run's last Visarga having at least one
preceding character of the run: that Visarga is replaced by a colon unless
the run's prefix up to and including it is a key of the mapping, in which
case the prefix is preserved; every other character, including a run-initial
Visarga and any earlier Visarga of the same run, is left unchanged.  Stated
as an equality with the per-run spec rule `visargaSpec`. -/
theorem c3_last_visarga_per_run (valid : List (List Char)) (text : List Char) :
    CleanVisarga.clean_text valid text = CleanVisarga.visargaSpec valid text :=
  CleanVisarga.cleanTextFuel_eq_spec valid text.length text (Nat.le_refl _)

/-- C4 amended: across the byte-range chunks of `_compute_chunks`, a line
(identified by its starting offset) is processed by *at most one* worker —
never split, never twice; exactly-once fails because a line starting exactly
at a non-zero chunk boundary is processed by no worker. -/
theorem c4_line_processed_at_most_once (file : List Char) (n off : Nat) :
    ((MasterCleanup2._compute_chunks (MasterCleanup2.bytesLen file) n).countP
      (fun se => MasterCleanup2.processesLine
        (MasterCleanup2.withOffsets 0 (MasterCleanup2.linesKeepNl file))
        se off)) ≤ 1 :=
  MasterCleanup2.chunksLoop_countP_le_one ..

/-- C4 counterexample: in the file "ab\ncd\n" split into two chunks, the
second line (offset 3, exactly the second chunk's start) is processed by
*zero* chunks, refuting "every input line is processed exactly once". -/
theorem c4_boundary_line_lost :
    ((MasterCleanup2._compute_chunks
        (MasterCleanup2.bytesLen "ab\ncd\n".toList) 2).countP
      (fun se => MasterCleanup2.processesLine
        (MasterCleanup2.withOffsets 0
          (MasterCleanup2.linesKeepNl "ab\ncd\n".toList)) se 3)) = 0 ∧
    (MasterCleanup2.withOffsets 0
      (MasterCleanup2.linesKeepNl "ab\ncd\n".toList)).map Prod.fst = [0, 3] := by
  constructor
  · decide
  · decide

/-- C5 counterexample: the resolver-then-filter composition is not
idempotent.  On ന+virama+ZWNJ the first pass keeps the bare
consonant+virama (rule 2, ZWNJ dropped), but the second pass sees a bare
consonant+virama at end of input and converts it to the atomic chillu. -/
theorem c5_composition_not_idempotent :
    StructuralCleanup.clean_text (ChilluHandling.rigorous_malayalam_normalization
        (StructuralCleanup.clean_text
          (ChilluHandling.rigorous_malayalam_normalization
            ['ന', virama, zwnj]))) ≠
      StructuralCleanup.clean_text
        (ChilluHandling.rigorous_malayalam_normalization
          ['ന', virama, zwnj]) := by
  simp +decide [StructuralCleanup.clean_text, StructuralCleanup.lineStage,
    StructuralCleanup.preLine, StructuralCleanup.multiBlankSub,
    StructuralCleanup.multiSpaceSub, StructuralCleanup.repeatedPunctSub,
    StructuralCleanup.ellipsisSub, StructuralCleanup.remove_stray_vowel_signs,
    StructuralCleanup.strayGo, nfcMal, unescapeNewlines, splitNl, joinNl,
    pyStrip, List.intercalate, ChilluHandling.rigorous_malayalam_normalization,
    ChilluHandling.substChillu, ChilluHandling.callback,
    ChilluHandling.chilluMapGet]

/-- C5 amended: the ambiguous-pattern resolver alone *is* idempotent on
inputs containing no zero-width joiner or non-joiner; non-idempotence of the
pipeline stems from joiner consumption (and deletions exposing new
end-of-input consonant+virama pairs), not from the rewrite rules
themselves. -/
theorem c5_resolver_idempotent_on_joiner_free (s : List Char)
    (h1 : zwj ∉ s) (h2 : zwnj ∉ s) :
    ChilluHandling.rigorous_malayalam_normalization
        (ChilluHandling.rigorous_malayalam_normalization s) =
      ChilluHandling.rigorous_malayalam_normalization s := by
  have hsub1 : zwj ∉ ChilluHandling.substChillu s := fun hm =>
    h1 (ChilluHandling.subst_joiner_mem (Or.inl rfl) hm)
  have hsub2 : zwnj ∉ ChilluHandling.substChillu s := fun hm =>
    h2 (ChilluHandling.subst_joiner_mem (Or.inr rfl) hm)
  rw [ChilluHandling.rigorous_eq_subst h1 h2,
    ChilluHandling.rigorous_eq_subst hsub1 hsub2,
    ChilluHandling.substChillu_idem h1 h2]

/-- Witness for C5: the amended idempotence at the joiner-free input
ന+virama+ന (a kept ligature context). -/
theorem c5_resolver_idempotent_witness :
    ChilluHandling.rigorous_malayalam_normalization
        (ChilluHandling.rigorous_malayalam_normalization ['ന', virama, 'ന']) =
      ChilluHandling.rigorous_malayalam_normalization ['ന', virama, 'ന'] :=
  c5_resolver_idempotent_on_joiner_free ['ന', virama, 'ന'] (by decide)
    (by decide)

/-- C6: PairMiner's output has an entry for `w` exactly when the mechanical
atomic-chillu substitution changes `w` into a string that is itself a
vocabulary entry, and the entry maps `w` to that substituted string. -/
theorem c6_pairminer_characterization (vocab : List (List Char))
    (w a : List Char) :
    (w, a) ∈ FindChilluPairs.find_chillu_pairs vocab ↔
      w ∈ vocab ∧ FindChilluPairs.atomicSub w ≠ w ∧
        FindChilluPairs.atomicSub w ∈ vocab ∧
        a = FindChilluPairs.atomicSub w := by
  unfold FindChilluPairs.find_chillu_pairs
  rw [List.mem_filterMap]
  constructor
  · rintro ⟨x, hx, hfx⟩
    by_cases hk : FindChilluPairs.hasKey x = true
    · rw [if_pos hk] at hfx
      by_cases hcond : FindChilluPairs.atomicSub x ≠ x ∧
          FindChilluPairs.atomicSub x ∈ vocab
      · rw [if_pos hcond] at hfx
        have hpair := Option.some.inj hfx
        have hxw : x = w := congrArg Prod.fst hpair
        have hav : FindChilluPairs.atomicSub x = a :=
          congrArg Prod.snd hpair
        subst hxw
        exact ⟨hx, hcond.1, hcond.2, hav.symm⟩
      · rw [if_neg hcond] at hfx
        exact absurd hfx (by simp)
    · rw [if_neg hk] at hfx
      exact absurd hfx (by simp)
  · rintro ⟨hw, hne, hmem, rfl⟩
    refine ⟨w, hw, ?_⟩
    rw [if_pos ((FindChilluPairs.hasKey_iff_atomicSub_ne w).mpr hne),
      if_pos ⟨hne, hmem⟩]

/-- C7 amended: a *missing* ValidatedMapping degrades gracefully — the
worker initializer installs the empty mapping, under which the dictionary
word-rewrite stage is the identity and the per-line transform reduces to the
rule-based Visarga cleanup alone.  (A *malformed* mapping file is a
different story — see the counterexample.) -/
theorem c7_missing_mapping_degrades
    (parse : List Char → Option MasterCleanup2.Mapping) (line : List Char) :
    MasterCleanup2._init_worker parse none = .ok [] ∧
    MasterCleanup2._normalize_chillu_line [] line = line ∧
    MasterCleanup2.processLine [] line =
      MasterCleanup2.clean_visarga (MasterCleanup2.rstripNlCr line) ++ ['\n'] :=
  ⟨rfl, rfl, rfl⟩

/-- C7 counterexample: a *malformed* mapping file is not recovered —
`_init_worker` feeds it straight to `json.load` with no handler, so worker
initialization propagates the parse failure and the run fails instead of
degrading. -/
theorem c7_malformed_mapping_fails :
    MasterCleanup2._init_worker MasterCleanup2.jsonParse
      (some "not json".toList) = .error () := rfl

/-- C8 amended: the stray-vowel-sign filter removes a sign exactly when its
*surviving* predecessor is absent or not a valid base: its output always
satisfies the signs-on-bases invariant, and any stream already satisfying it
(in particular one whose raw predecessors were not dropped) passes through
unchanged with a zero removal count.  A sign whose raw predecessor was
dropped by the earlier allow-list stage is *kept* when the nearest surviving
predecessor is a valid base — see the counterexample. -/
theorem c8_stray_removal_iff_invalid_base (text : List Char) :
    StructuralCleanup.signsHaveBases none
        ((StructuralCleanup.remove_stray_vowel_signs text).1) = true ∧
    (StructuralCleanup.signsHaveBases none text = true →
      StructuralCleanup.remove_stray_vowel_signs text = (text, 0)) :=
  ⟨StructuralCleanup.strayGo_sound none text,
   fun h => StructuralCleanup.strayGo_complete text none h⟩

/-- Witness for C8: the filter's output on ക+vowel-sign satisfies the
invariant, and that already-valid stream passes through with count 0. -/
theorem c8_stray_removal_witness :
    StructuralCleanup.signsHaveBases none
        ((StructuralCleanup.remove_stray_vowel_signs ['ക', 'ാ']).1) = true ∧
    StructuralCleanup.remove_stray_vowel_signs ['ക', 'ാ'] = (['ക', 'ാ'], 0) :=
  ⟨(c8_stray_removal_iff_invalid_base ['ക', 'ാ']).1,
   (c8_stray_removal_iff_invalid_base ['ക', 'ാ']).2 (by decide)⟩

/-- C8 counterexample: the claim's "a vowel sign whose raw predecessor was
itself dropped is removed" is false for the structural filter: here the raw
predecessor (a Tamil scalar) is dropped by the allow-list, yet the vowel
sign survives because its surviving predecessor ക is a valid base. -/
theorem c8_sign_after_dropped_scalar_kept :
    StructuralCleanup.clean_text ['ക', 'அ', 'ാ'] = ['ക', 'ാ'] := by
  simp +decide [StructuralCleanup.clean_text, StructuralCleanup.lineStage,
    StructuralCleanup.preLine, StructuralCleanup.multiBlankSub,
    StructuralCleanup.multiSpaceSub, StructuralCleanup.repeatedPunctSub,
    StructuralCleanup.ellipsisSub, StructuralCleanup.remove_stray_vowel_signs,
    StructuralCleanup.strayGo, nfcMal, unescapeNewlines, splitNl, joinNl,
    pyStrip, List.intercalate]

/-- C9 amended: the line stage drops every line that is empty or whitespace/
asterisk-only after trimming, and that is all the surviving text ever gets:
runs of blank lines are removed *entirely*, so the step-9 collapse of three
or more newlines to two never fires — `clean_text` is exactly the line
stage over the character-level stages. -/
theorem c9_line_stage_characterization (text : List Char) :
    StructuralCleanup.clean_text text =
      joinNl (((splitNl (StructuralCleanup.preLine text)).map pyStrip).filter
        (fun ln => !ln.isEmpty && !StructuralCleanup.asteriskLine ln)) := by
  show StructuralCleanup.multiBlankSub
      (StructuralCleanup.lineStage (StructuralCleanup.preLine text)) = _
  rw [multiBlankSub_lineStage]
  rfl

/-- C9 counterexample: a run of three blank lines between "a" and "b" is
removed entirely — the output is "a\nb", not the "a\n\nb" that "collapses
3+ consecutive blank lines to exactly one blank line" would produce. -/
theorem c9_blank_run_removed_entirely :
    StructuralCleanup.clean_text
        ('a' :: '\n' :: '\n' :: '\n' :: '\n' :: ['b']) = ['a', '\n', 'b'] ∧
    (['a', '\n', 'b'] : List Char) ≠ ['a', '\n', '\n', 'b'] := by
  constructor
  · simp +decide [StructuralCleanup.clean_text, StructuralCleanup.lineStage,
      StructuralCleanup.preLine, StructuralCleanup.multiBlankSub,
      StructuralCleanup.multiSpaceSub, StructuralCleanup.repeatedPunctSub,
      StructuralCleanup.ellipsisSub,
      StructuralCleanup.remove_stray_vowel_signs,
      StructuralCleanup.strayGo, nfcMal, unescapeNewlines, splitNl, joinNl,
      pyStrip, List.intercalate]
  · decide

/-- C10: the per-document pipeline is a pure length gate over its cleaning
composite — it returns `none` exactly when the cleaned, trimmed text is
shorter than `MIN_CLEANED_LENGTH` (20) scalars, even when that text is
non-empty, and otherwise returns the cleaned text.  (The early empty-input
return folds into the gate: the pipeline maps empty input to empty cleaned
text, whose length 0 is below the gate.) -/
theorem c10_length_gate (raw : List Char) :
    MasterCleanup1.clean_document raw =
      if (MasterCleanup1.cleanedText raw).length <
          MasterCleanup1.MIN_CLEANED_LENGTH
      then none else some (MasterCleanup1.cleanedText raw) := by
  simp only [MasterCleanup1.clean_document, MasterCleanup1.cleanedText]
  by_cases h : unescapeNewlines (pyStrip raw) = []
  · rw [h]
    have hz : pyStrip (MasterCleanup1.remove_boilerplate
        (MasterCleanup1.structural_cleanup
          (MasterCleanup1.normalize_zwj ([] : List Char)))) = [] := by
      simp +decide [MasterCleanup1.normalize_zwj,
        MasterCleanup1.structural_cleanup, MasterCleanup1._filter_chars,
        MasterCleanup1._remove_stray_vowel_signs, MasterCleanup1.htmlTagSub,
        MasterCleanup1.spacedPunctSub, MasterCleanup1.spacedMany,
        MasterCleanup1.spacedManyFuel, MasterCleanup1.remove_boilerplate,
        MasterCleanup1._is_boilerplate_line,
        StructuralCleanup.multiBlankSub, StructuralCleanup.lineStage,
        StructuralCleanup.multiSpaceSub, StructuralCleanup.repeatedPunctSub,
        StructuralCleanup.ellipsisSub, StructuralCleanup.strayGo,
        nfcMal, splitNl, joinNl, pyStrip, List.intercalate]
    rw [hz]
    simp [MasterCleanup1.MIN_CLEANED_LENGTH]
  · have hne : (unescapeNewlines (pyStrip raw)).isEmpty = false := by
      cases he : unescapeNewlines (pyStrip raw)
      · exact absurd he h
      · rfl
    simp only [hne, Bool.false_eq_true, if_false]